import Mathlib

/-!
# Verification of the `eg` example-search core

A shallow embedding of the `eg` library's search pipeline
(`src/lib.rs`, `src/error.rs`, `src/rust/{mod,version,cache,extraction,github}.rs`),
together with proofs about the claims of the design spec.

External collaborators (the `semver`, `regex`, `crates_io_api`, `cargo_metadata`,
`octocrab`, `base64` crates, the network and the filesystem) are modelled either
as explicit Lean functions (for `semver`, whose semantics the spec relies on) or
as parameters of a `SearchEnv` record (for everything that performs I/O).
Machine integers are modelled as `Nat`; the `as u32` casts and `u32` counters of
the source are modelled with explicit `% 2^32` (release-mode wrapping semantics).
-/

namespace Eg

/-! ## The semver collaborator

The source calls into the `semver` crate (`Version::parse`, `VersionReq::parse`,
`VersionReq::matches`, `Ord for Version`).  That crate is an external dependency,
so the definitions below model its documented semantics (SemVer 2.0.0 with
Cargo-flavoured requirement operators): a version is `major.minor.patch` with an
optional dot-separated prerelease and build-metadata suffix; numeric identifiers
are `u64` values without leading zeros; precedence compares the numeric triple,
then the prerelease (empty greatest, identifiers compared numerically /
lexically, numeric before alphanumeric), with build metadata as a final
equality-consistent tiebreak (empty least). -/

/-- A semver prerelease identifier: numeric or alphanumeric. -/
inductive SvId where
  | num (n : Nat)
  | alpha (s : String)
  deriving DecidableEq, Repr

/-- Three-way comparison induced by a linear order. -/
def cmpOfLess {α} [LinearOrder α] (a b : α) : Ordering :=
  if a < b then .lt else if a = b then .eq else .gt

def natCmp (a b : Nat) : Ordering := cmpOfLess a b

def strCmp (a b : String) : Ordering := cmpOfLess a b

/-- Identifier comparison: numeric by value, numeric before alphanumeric,
alphanumeric lexically in ASCII order. -/
def SvId.cmp : SvId → SvId → Ordering
  | .num a, .num b => natCmp a b
  | .num _, .alpha _ => .lt
  | .alpha _, .num _ => .gt
  | .alpha a, .alpha b => strCmp a b

/-- Lexicographic comparison of identifier lists; a strict prefix is smaller. -/
def listCmp (f : α → α → Ordering) : List α → List α → Ordering
  | [], [] => .eq
  | [], _ :: _ => .lt
  | _ :: _, [] => .gt
  | a :: as, b :: bs =>
    match f a b with
    | .eq => listCmp f as bs
    | o => o

/-- Prerelease comparison: the empty prerelease (a normal release) is greatest. -/
def preCmp (a b : List SvId) : Ordering :=
  match a, b with
  | [], [] => .eq
  | [], _ :: _ => .gt
  | _ :: _, [] => .lt
  | _, _ => listCmp SvId.cmp a b

/-- Build-metadata comparison: empty build metadata is least. -/
def buildCmp (a b : List String) : Ordering :=
  match a, b with
  | [], [] => .eq
  | [], _ :: _ => .lt
  | _ :: _, [] => .gt
  | _, _ => listCmp strCmp a b

/-- A parsed semantic version. -/
structure Version where
  major : Nat
  minor : Nat
  patch : Nat
  pre : List SvId
  build : List String
  deriving DecidableEq, Repr

/-- `Ord for Version`: major, minor, patch, prerelease, then build metadata. -/
def Version.cmp (a b : Version) : Ordering :=
  (natCmp a.major b.major).then ((natCmp a.minor b.minor).then
    ((natCmp a.patch b.patch).then ((preCmp a.pre b.pre).then
      (buildCmp a.build b.build))))

/-- Boolean `≤` on versions, as used to sort the matching-version vector. -/
def Version.leb (a b : Version) : Bool :=
  match Version.cmp a b with
  | .gt => false
  | _ => true

/-! ### Parsing -/

def isDigitChar (c : Char) : Bool := c.isDigit

/-- Characters allowed in semver identifiers: `[0-9A-Za-z-]`. -/
def isIdentChar (c : Char) : Bool := c.isDigit || c.isAlpha || c == '-'

def digitsVal (cs : List Char) : Nat :=
  cs.foldl (fun n c => n * 10 + (c.toNat - Char.toNat '0')) 0

/-- Parse a numeric identifier: nonempty, all digits, no leading zero
(unless it is exactly `0`), and within `u64` range. -/
def parseNumericId (cs : List Char) : Option Nat :=
  if cs.isEmpty then none
  else if !cs.all isDigitChar then none
  else if cs.length > 1 && cs.head? == some '0' then none
  else
    let v := digitsVal cs
    if v < 18446744073709551616 then some v else none

/-- Parse one prerelease identifier. -/
def parsePreId (cs : List Char) : Option SvId :=
  if cs.isEmpty then none
  else if !cs.all isIdentChar then none
  else if cs.all isDigitChar then (parseNumericId cs).map .num
  else some (.alpha (String.mk cs))

/-- Parse one build-metadata identifier (leading zeros are allowed here). -/
def parseBuildId (cs : List Char) : Option String :=
  if cs.isEmpty then none
  else if !cs.all isIdentChar then none
  else some (String.mk cs)

/-- Split a character list on a separator, keeping empty segments. -/
def splitOnChar (sep : Char) : List Char → List (List Char)
  | [] => [[]]
  | c :: rest =>
    let r := splitOnChar sep rest
    if c = sep then [] :: r
    else
      match r with
      | seg :: segs => (c :: seg) :: segs
      | [] => [[c]]

/-- Substring test on character lists (Rust `str::contains`). -/
def containsSub : List Char → List Char → Bool
  | [], needle => needle.isEmpty
  | c :: rest, needle => needle.isPrefixOf (c :: rest) || containsSub rest needle

/-- Rust `str::ends_with`. -/
def strEndsWith (s suffix : String) : Bool := suffix.toList.isSuffixOf s.toList

def isWhitespaceChar (c : Char) : Bool :=
  c == ' ' || c == '\t' || c == '\n' || c == '\r'

/-- Rust `str::trim` (ASCII whitespace suffices for this model). -/
def trimChars (s : String) : String :=
  String.mk (((s.toList.dropWhile isWhitespaceChar).reverse.dropWhile
    isWhitespaceChar).reverse)

/-- Drop the last `n` characters. -/
def strDropRight (s : String) (n : Nat) : String :=
  String.mk (s.toList.take (s.toList.length - n))

instance {ε α} [DecidableEq ε] [DecidableEq α] : DecidableEq (Except ε α) := fun a b =>
  match a, b with
  | .error e₁, .error e₂ =>
    if h : e₁ = e₂ then isTrue (by rw [h]) else isFalse (fun hc => by cases hc; exact h rfl)
  | .ok v₁, .ok v₂ =>
    if h : v₁ = v₂ then isTrue (by rw [h]) else isFalse (fun hc => by cases hc; exact h rfl)
  | .error _, .ok _ => isFalse (fun hc => by cases hc)
  | .ok _, .error _ => isFalse (fun hc => by cases hc)

/-- Stable insertion: place `a` before the first element `b` with `le a b`.
Together with `stableSort` this models Rust's stable `Vec::sort`; a stable
sort's output is uniquely determined by `le`, so any stable algorithm yields
the same list. -/
def insertLe (le : α → α → Bool) (a : α) : List α → List α
  | [] => [a]
  | b :: bs => if le a b then a :: b :: bs else b :: insertLe le a bs

/-- Stable insertion sort (the model of `Vec::sort`). -/
def stableSort (le : α → α → Bool) : List α → List α
  | [] => []
  | a :: as => insertLe le a (stableSort le as)

/-- `semver::Version::parse`. -/
def Version.parse (s : String) : Option Version :=
  let cs := s.toList
  let core := cs.takeWhile (fun c => !(c == '-') && !(c == '+'))
  let rest := cs.dropWhile (fun c => !(c == '-') && !(c == '+'))
  match splitOnChar '.' core with
  | [ma, mi, pa] =>
    match parseNumericId ma, parseNumericId mi, parseNumericId pa with
    | some major, some minor, some patch =>
      match rest with
      | [] => some ⟨major, minor, patch, [], []⟩
      | '-' :: r =>
        let preCs := r.takeWhile (fun c => !(c == '+'))
        let buildRest := r.dropWhile (fun c => !(c == '+'))
        match (splitOnChar '.' preCs).mapM parsePreId with
        | none => none
        | some pre =>
          match buildRest with
          | [] => some ⟨major, minor, patch, pre, []⟩
          | '+' :: b =>
            match (splitOnChar '.' b).mapM parseBuildId with
            | none => none
            | some build => some ⟨major, minor, patch, pre, build⟩
          | _ => none
      | '+' :: b =>
        match (splitOnChar '.' b).mapM parseBuildId with
        | none => none
        | some build => some ⟨major, minor, patch, [], build⟩
      | _ => none
    | _, _, _ => none
  | _ => none

def SvId.render : SvId → String
  | .num n => ToString.toString n
  | .alpha s => s

/-- `Version::to_string`. -/
def Version.toString (v : Version) : String :=
  ToString.toString v.major ++ "." ++ ToString.toString v.minor ++ "." ++
    ToString.toString v.patch ++
    (match v.pre with
     | [] => ""
     | _ => "-" ++ String.intercalate "." (v.pre.map SvId.render)) ++
    (match v.build with
     | [] => ""
     | _ => "+" ++ String.intercalate "." v.build)

/-! ### Version requirements -/

/-- Requirement comparator operators (Cargo flavour; a bare version means caret). -/
inductive Op where
  | exact | greater | greaterEq | less | lessEq | tilde | caret | wildcard
  deriving DecidableEq, Repr

structure Comparator where
  op : Op
  major : Nat
  minor : Option Nat
  patch : Option Nat
  pre : List SvId
  deriving DecidableEq, Repr

structure VersionReq where
  comparators : List Comparator
  deriving DecidableEq, Repr

def parseOpPrefix (cs : List Char) : Op × List Char × Bool :=
  match cs with
  | '>' :: '=' :: r => (.greaterEq, r, true)
  | '<' :: '=' :: r => (.lessEq, r, true)
  | '>' :: r => (.greater, r, true)
  | '<' :: r => (.less, r, true)
  | '=' :: r => (.exact, r, true)
  | '~' :: r => (.tilde, r, true)
  | '^' :: r => (.caret, r, true)
  | _ => (.caret, cs, false)

def isWildcardSeg (cs : List Char) : Bool :=
  cs == ['*'] || cs == ['x'] || cs == ['X']

/-- Parse one comparator of a version requirement. -/
def parseComparator (s : String) : Option Comparator :=
  let cs := s.toList
  let (op, rest0, explicitOp) := parseOpPrefix cs
  let rest := rest0.dropWhile (fun c => c == ' ')
  if rest.any (fun c => c == '+') then none
  else
    let core := rest.takeWhile (fun c => !(c == '-'))
    let preRest := rest.dropWhile (fun c => !(c == '-'))
    match splitOnChar '.' core with
    | [ma] =>
      (parseNumericId ma).bind fun major =>
        if preRest.isEmpty then some ⟨op, major, none, none, []⟩ else none
    | [ma, mi] =>
      (parseNumericId ma).bind fun major =>
        if isWildcardSeg mi then
          if explicitOp || !preRest.isEmpty then none
          else some ⟨.wildcard, major, none, none, []⟩
        else
          (parseNumericId mi).bind fun minor =>
            if preRest.isEmpty then some ⟨op, major, some minor, none, []⟩
            else none
    | [ma, mi, pa] =>
      (parseNumericId ma).bind fun major =>
        if isWildcardSeg mi then
          if isWildcardSeg pa && !explicitOp && preRest.isEmpty then
            some ⟨.wildcard, major, none, none, []⟩
          else none
        else
          (parseNumericId mi).bind fun minor =>
            if isWildcardSeg pa then
              if explicitOp || !preRest.isEmpty then none
              else some ⟨.wildcard, major, some minor, none, []⟩
            else
              (parseNumericId pa).bind fun patch =>
                match preRest with
                | '-' :: p =>
                  ((splitOnChar '.' p).mapM parsePreId).map fun pre =>
                    ⟨op, major, some minor, some patch, pre⟩
                | [] => some ⟨op, major, some minor, some patch, []⟩
                | _ => none
    | _ => none

/-- `semver::VersionReq::parse`: comma-separated comparators.  `*` is the
match-anything requirement (empty comparator list). -/
def VersionReq.parse (s : String) : Except String VersionReq :=
  let t := trimChars s
  if t == "*" || t == "" then .ok ⟨[]⟩
  else
    let segs := (splitOnChar ',' t.toList).map (fun seg => trimChars (String.mk seg))
    match segs.mapM (fun seg => if seg == "" then none else parseComparator seg) with
    | some comps => .ok ⟨comps⟩
    | none => .error ("unexpected character in version requirement: " ++ s)

def preCmpGe (a b : List SvId) : Bool := !(preCmp a b == .lt)

def preCmpGt (a b : List SvId) : Bool := preCmp a b == .gt

def matchesExact (c : Comparator) (v : Version) : Bool :=
  v.major == c.major
    && (match c.minor with | none => true | some m => v.minor == m)
    && (match c.patch with | none => true | some p => v.patch == p)
    && v.pre == c.pre

def matchesGreater (c : Comparator) (v : Version) : Bool :=
  if v.major != c.major then decide (v.major > c.major)
  else
    match c.minor with
    | none => false
    | some minor =>
      if v.minor != minor then decide (v.minor > minor)
      else
        match c.patch with
        | none => false
        | some patch =>
          if v.patch != patch then decide (v.patch > patch)
          else preCmpGt v.pre c.pre

def matchesLess (c : Comparator) (v : Version) : Bool :=
  if v.major != c.major then decide (v.major < c.major)
  else
    match c.minor with
    | none => false
    | some minor =>
      if v.minor != minor then decide (v.minor < minor)
      else
        match c.patch with
        | none => false
        | some patch =>
          if v.patch != patch then decide (v.patch < patch)
          else preCmp v.pre c.pre == .lt

def matchesTilde (c : Comparator) (v : Version) : Bool :=
  if v.major != c.major then false
  else
    match c.minor, c.patch with
    | some minor, some patch =>
      if v.minor != minor then false
      else if v.patch != patch then decide (v.patch > patch)
      else preCmpGe v.pre c.pre
    | some minor, none =>
      if v.minor != minor then false else preCmpGe v.pre c.pre
    | none, _ => preCmpGe v.pre c.pre

def matchesCaret (c : Comparator) (v : Version) : Bool :=
  if v.major != c.major then false
  else
    match c.minor with
    | none => true
    | some minor =>
      match c.patch with
      | none =>
        if c.major > 0 then decide (v.minor ≥ minor) else v.minor == minor
      | some patch =>
        if c.major > 0 then
          if v.minor != minor then decide (v.minor > minor)
          else if v.patch != patch then decide (v.patch > patch)
          else preCmpGe v.pre c.pre
        else if minor > 0 then
          if v.minor != minor then false
          else if v.patch != patch then decide (v.patch > patch)
          else preCmpGe v.pre c.pre
        else
          if v.minor != minor || v.patch != patch then false
          else preCmpGe v.pre c.pre

def matchesImpl (c : Comparator) (v : Version) : Bool :=
  match c.op with
  | .exact | .wildcard => matchesExact c v
  | .greater => matchesGreater c v
  | .greaterEq => matchesExact c v || matchesGreater c v
  | .less => matchesLess c v
  | .lessEq => matchesExact c v || matchesLess c v
  | .tilde => matchesTilde c v
  | .caret => matchesCaret c v

/-! ### Laws of the version ordering

`sort()` followed by `last()` returns a maximum only because `Ord for Version`
is a total preorder; we prove transitivity and totality of `Version.leb` from a
small theory of three-way comparators. -/

theorem then_gt_left (o : Ordering) : Ordering.gt.then o = .gt := rfl

theorem then_lt_left (o : Ordering) : Ordering.lt.then o = .lt := rfl

theorem then_eq_left (o : Ordering) : Ordering.eq.then o = o := rfl

/-- The laws a lawful three-way comparator satisfies. -/
structure CmpLaws (f : α → α → Ordering) : Prop where
  symm : ∀ a b, f a b = (f b a).swap
  lt_trans : ∀ a b c, f a b = .lt → f b c = .lt → f a c = .lt
  eq_left : ∀ a b c, f a b = .eq → f a c = f b c

theorem CmpLaws.cmp_refl {f : α → α → Ordering} (h : CmpLaws f) (a : α) :
    f a a = .eq := by
  have := h.symm a a
  cases hf : f a a <;> rw [hf] at this <;> simp [Ordering.swap] at this <;> simp [hf, this]

theorem CmpLaws.eq_right {f : α → α → Ordering} (h : CmpLaws f) :
    ∀ a b c, f b c = .eq → f a b = f a c := by
  intro a b c hbc
  have hcb : f c b = .eq := by
    have := h.symm b c
    rw [hbc] at this
    cases hf : f c b <;> rw [hf] at this <;> simp [Ordering.swap] at this <;> rfl
  have h1 := h.eq_left c b a hcb
  have h2 := h.symm a b
  have h3 := h.symm a c
  rw [h2, h3, h1]

theorem CmpLaws.le_trans {f : α → α → Ordering} (h : CmpLaws f) :
    ∀ a b c, f a b ≠ .gt → f b c ≠ .gt → f a c ≠ .gt := by
  intro a b c hab hbc
  cases h1 : f a b with
  | gt => exact absurd h1 hab
  | lt =>
    cases h2 : f b c with
    | gt => exact absurd h2 hbc
    | lt => simp [h.lt_trans a b c h1 h2]
    | eq => rw [h.eq_right a b c h2] at h1; simp [h1]
  | eq =>
    rw [h.eq_left a b c h1]
    exact hbc

theorem CmpLaws.le_total {f : α → α → Ordering} (h : CmpLaws f) :
    ∀ a b, f a b ≠ .gt ∨ f b a ≠ .gt := by
  intro a b
  cases h1 : f a b with
  | gt =>
    right
    have := h.symm a b
    rw [h1] at this
    cases h2 : f b a <;> rw [h2] at this <;> simp [Ordering.swap] at this <;> simp
  | lt => left; simp
  | eq => left; simp

/-- Lexicographic composition of lawful comparators is lawful. -/
theorem CmpLaws.then2 {f g : α → α → Ordering} (hf : CmpLaws f) (hg : CmpLaws g) :
    CmpLaws (fun a b => (f a b).then (g a b)) where
  symm := by
    intro a b
    show (f a b).then (g a b) = ((f b a).then (g b a)).swap
    rw [hf.symm a b, hg.symm a b]
    cases f b a <;> cases g b a <;> rfl
  lt_trans := by
    intro a b c hab hbc
    show (f a c).then (g a c) = .lt
    replace hab : (f a b).then (g a b) = .lt := hab
    replace hbc : (f b c).then (g b c) = .lt := hbc
    cases h1 : f a b with
    | gt => rw [h1, then_gt_left] at hab; exact absurd hab (by simp)
    | lt =>
      cases h2 : f b c with
      | gt => rw [h2, then_gt_left] at hbc; exact absurd hbc (by simp)
      | lt => rw [hf.lt_trans a b c h1 h2, then_lt_left]
      | eq => rw [hf.eq_right a b c h2] at h1; rw [h1, then_lt_left]
    | eq =>
      rw [h1, then_eq_left] at hab
      cases h2 : f b c with
      | gt => rw [h2, then_gt_left] at hbc; exact absurd hbc (by simp)
      | lt => rw [hf.eq_left a b c h1, h2, then_lt_left]
      | eq =>
        rw [h2, then_eq_left] at hbc
        rw [hf.eq_left a b c h1, h2, then_eq_left]
        exact hg.lt_trans a b c hab hbc
  eq_left := by
    intro a b c hab
    replace hab : (f a b).then (g a b) = .eq := hab
    show (f a c).then (g a c) = (f b c).then (g b c)
    cases h1 : f a b with
    | gt => rw [h1, then_gt_left] at hab; exact absurd hab (by simp)
    | lt => rw [h1, then_lt_left] at hab; exact absurd hab (by simp)
    | eq =>
      rw [h1, then_eq_left] at hab
      rw [hf.eq_left a b c h1, hg.eq_left a b c hab]

/-- Pulling a lawful comparator back along a key function keeps it lawful. -/
theorem CmpLaws.comap {f : β → β → Ordering} (hf : CmpLaws f) (k : α → β) :
    CmpLaws (fun a b => f (k a) (k b)) where
  symm := by intro a b; exact hf.symm (k a) (k b)
  lt_trans := by intro a b c h1 h2; exact hf.lt_trans _ _ _ h1 h2
  eq_left := by intro a b c h1; exact hf.eq_left _ _ _ h1

theorem cmpOfLess_laws {α} [LinearOrder α] : CmpLaws (cmpOfLess (α := α)) where
  symm := by
    intro a b
    rcases lt_trichotomy a b with h | h | h
    · simp [cmpOfLess, h, not_lt_of_gt h, (ne_of_lt h).symm, Ordering.swap]
    · subst h; simp [cmpOfLess, lt_irrefl, Ordering.swap]
    · simp [cmpOfLess, h, not_lt_of_gt h, (ne_of_lt h).symm, ne_of_lt h, Ordering.swap]
  lt_trans := by
    intro a b c h1 h2
    have hab : a < b := by
      by_contra hc
      simp only [cmpOfLess, if_neg hc] at h1
      split at h1 <;> simp_all
    have hbc : b < c := by
      by_contra hc
      simp only [cmpOfLess, if_neg hc] at h2
      split at h2 <;> simp_all
    simp [cmpOfLess, lt_trans hab hbc]
  eq_left := by
    intro a b c h1
    have hab : a = b := by
      by_contra hc
      simp only [cmpOfLess, if_neg hc] at h1
      split at h1 <;> simp_all
    subst hab
    rfl

theorem natCmp_laws : CmpLaws natCmp := cmpOfLess_laws

theorem strCmp_laws : CmpLaws strCmp := cmpOfLess_laws

theorem svIdCmp_laws : CmpLaws SvId.cmp where
  symm := by
    intro a b
    cases a <;> cases b <;> simp [SvId.cmp, Ordering.swap]
    · exact natCmp_laws.symm _ _
    · exact strCmp_laws.symm _ _
  lt_trans := by
    intro a b c h1 h2
    cases a <;> cases b <;> cases c <;> simp_all [SvId.cmp]
    · exact natCmp_laws.lt_trans _ _ _ h1 h2
    · exact strCmp_laws.lt_trans _ _ _ h1 h2
  eq_left := by
    intro a b c h1
    cases a <;> cases b <;> cases c <;> simp_all [SvId.cmp]
    · exact natCmp_laws.eq_left _ _ _ h1
    · exact strCmp_laws.eq_left _ _ _ h1

theorem listCmp_laws {f : α → α → Ordering} (hf : CmpLaws f) : CmpLaws (listCmp f) where
  symm := by
    intro a b
    induction a generalizing b with
    | nil => cases b <;> rfl
    | cons x xs ih =>
      cases b with
      | nil => rfl
      | cons y ys =>
        simp only [listCmp]
        rw [hf.symm x y]
        cases f y x <;> simp [Ordering.swap, ih ys]
  lt_trans := by
    intro a b c h1 h2
    induction a generalizing b c with
    | nil =>
      cases b with
      | nil => exact h2
      | cons y ys => cases c with
        | nil => simp [listCmp] at h2
        | cons z zs => rfl
    | cons x xs ih =>
      cases b with
      | nil => simp [listCmp] at h1
      | cons y ys =>
        cases c with
        | nil => simp [listCmp] at h2
        | cons z zs =>
          simp only [listCmp] at *
          cases hxy : f x y with
          | gt => rw [hxy] at h1; simp at h1
          | lt =>
            cases hyz : f y z with
            | gt => rw [hyz] at h2; simp at h2
            | lt => simp [hf.lt_trans _ _ _ hxy hyz]
            | eq => rw [hf.eq_right x y z hyz] at hxy; simp [hxy]
          | eq =>
            rw [hxy] at h1
            cases hyz : f y z with
            | gt => rw [hyz] at h2; simp at h2
            | lt => rw [hf.eq_left x y z hxy]; simp [hyz]
            | eq =>
              rw [hyz] at h2
              rw [hf.eq_left x y z hxy, hyz]
              simp only
              exact ih _ _ h1 h2
  eq_left := by
    intro a b c h1
    induction a generalizing b c with
    | nil =>
      cases b with
      | nil => rfl
      | cons y ys => simp [listCmp] at h1
    | cons x xs ih =>
      cases b with
      | nil => simp [listCmp] at h1
      | cons y ys =>
        simp only [listCmp] at *
        cases hxy : f x y with
        | gt => rw [hxy] at h1; simp at h1
        | lt => rw [hxy] at h1; simp at h1
        | eq =>
          rw [hxy] at h1
          cases c with
          | nil => rfl
          | cons z zs =>
            simp only [listCmp]
            rw [hf.eq_left x y z hxy]
            cases f y z <;> simp
            exact ih _ _ h1

theorem preCmp_laws : CmpLaws preCmp where
  symm := by
    intro a b
    cases a <;> cases b <;> simp [preCmp, Ordering.swap]
    exact (listCmp_laws svIdCmp_laws).symm _ _
  lt_trans := by
    intro a b c h1 h2
    cases a with
    | nil => cases b <;> simp [preCmp] at h1
    | cons x xs =>
      cases b with
      | nil => cases c <;> simp [preCmp] at h2
      | cons y ys =>
        cases c with
        | nil => simp [preCmp]
        | cons z zs =>
          simp only [preCmp] at *
          exact (listCmp_laws svIdCmp_laws).lt_trans _ _ _ h1 h2
  eq_left := by
    intro a b c h1
    cases a <;> cases b <;> simp_all [preCmp]
    cases c with
    | nil => rfl
    | cons z zs =>
      simp only [preCmp]
      exact (listCmp_laws svIdCmp_laws).eq_left _ _ _ h1

theorem buildCmp_laws : CmpLaws buildCmp where
  symm := by
    intro a b
    cases a <;> cases b <;> simp [buildCmp, Ordering.swap]
    exact (listCmp_laws strCmp_laws).symm _ _
  lt_trans := by
    intro a b c h1 h2
    cases a with
    | nil =>
      cases b with
      | nil => simp [buildCmp] at h1
      | cons y ys =>
        cases c with
        | nil => simp [buildCmp] at h2
        | cons z zs => simp [buildCmp]
    | cons x xs =>
      cases b with
      | nil => simp [buildCmp] at h1
      | cons y ys =>
        cases c with
        | nil => simp [buildCmp] at h2
        | cons z zs =>
          simp only [buildCmp] at *
          exact (listCmp_laws strCmp_laws).lt_trans _ _ _ h1 h2
  eq_left := by
    intro a b c h1
    cases a <;> cases b <;> simp_all [buildCmp]
    cases c with
    | nil => rfl
    | cons z zs =>
      simp only [buildCmp]
      exact (listCmp_laws strCmp_laws).eq_left _ _ _ h1

theorem versionCmp_laws : CmpLaws Version.cmp := by
  have h1 : CmpLaws (fun a b : Version => natCmp a.major b.major) :=
    natCmp_laws.comap Version.major
  have h2 : CmpLaws (fun a b : Version => natCmp a.minor b.minor) :=
    natCmp_laws.comap Version.minor
  have h3 : CmpLaws (fun a b : Version => natCmp a.patch b.patch) :=
    natCmp_laws.comap Version.patch
  have h4 : CmpLaws (fun a b : Version => preCmp a.pre b.pre) :=
    preCmp_laws.comap Version.pre
  have h5 : CmpLaws (fun a b : Version => buildCmp a.build b.build) :=
    buildCmp_laws.comap Version.build
  exact h1.then2 (h2.then2 (h3.then2 (h4.then2 h5)))

theorem versionLeb_iff (a b : Version) : Version.leb a b = true ↔ Version.cmp a b ≠ .gt := by
  unfold Version.leb
  cases Version.cmp a b <;> simp

theorem versionLeb_trans :
    ∀ a b c : Version, Version.leb a b → Version.leb b c → Version.leb a c := by
  intro a b c h1 h2
  rw [versionLeb_iff] at *
  exact versionCmp_laws.le_trans a b c h1 h2

theorem versionLeb_total : ∀ a b : Version, Version.leb a b || Version.leb b a := by
  intro a b
  rcases versionCmp_laws.le_total a b with h | h <;>
    simp [(versionLeb_iff _ _).mpr h]

theorem versionLeb_refl (a : Version) : Version.leb a a = true := by
  rw [versionLeb_iff, versionCmp_laws.cmp_refl]
  simp

def preIsCompatible (c : Comparator) (v : Version) : Bool :=
  c.major == v.major && c.minor == some v.minor && c.patch == some v.patch
    && !c.pre.isEmpty

/-- `semver::VersionReq::matches`: all comparators must match, and a prerelease
version additionally needs some comparator with the same triple and a nonempty
prerelease. -/
def VersionReq.matches (req : VersionReq) (v : Version) : Bool :=
  req.comparators.all (fun c => matchesImpl c v)
    && (v.pre.isEmpty || req.comparators.any (fun c => preIsCompatible c v))

/-! ## The pattern matcher

`find_matches` and `byte_to_line_col` appear with identical bodies in
`CrateExtractor` (`extraction.rs:108-150`) and `GitHubFallback`
(`github.rs:143-183`); they are embedded once here. -/

/-- 2^32: the modulus of the `u32` machine integers used by `SearchRange` and by
the line/column counters of `byte_to_line_col`. -/
def u32Mod : Nat := 4294967296

/-- UTF-8 byte length of a character list (Rust `str::len`). -/
def utf8Len : List Char → Nat
  | [] => 0
  | c :: cs => c.utf8Size + utf8Len cs

/-- UTF-8 byte length of a text. -/
def textByteLen (s : String) : Nat := utf8Len s.toList

/-- The scanning loop of `byte_to_line_col`: iterate `char_indices`, stopping at
the first scalar whose byte index reaches `byte_pos`; a line terminator
increments `line` and resets `col` to 1, any other scalar increments `col`.
The `u32` counters wrap modulo 2^32 (release-mode overflow semantics). -/
def btlcAux : List Char → Nat → Nat → Nat → Nat → Nat × Nat
  | [], _, _, line, col => (line, col)
  | c :: cs, i, bytePos, line, col =>
    if bytePos ≤ i then (line, col)
    else if c = '\n' then btlcAux cs (i + c.utf8Size) bytePos ((line + 1) % u32Mod) 1
    else btlcAux cs (i + c.utf8Size) bytePos line ((col + 1) % u32Mod)

/-- `byte_to_line_col` (`extraction.rs:133-150`, `github.rs:166-183`): convert a
byte position to 1-based line and column. -/
def byte_to_line_col (content : String) (byte_pos : Nat) : Nat × Nat :=
  btlcAux content.toList 0 byte_pos 1 1

/-- The compiled-pattern collaborator (the `regex` crate).  A compiled pattern
is modelled by its `find_iter` behaviour — the ordered list of non-overlapping
match spans (start byte, end byte) on a text — bundled with the crate's
guarantee that every span satisfies `start <= end <= text.len()`. -/
structure Regex where
  findIter : String → List (Nat × Nat)
  wf : ∀ s m, m ∈ findIter s → m.1 ≤ m.2 ∧ m.2 ≤ textByteLen s

/-- `SearchRange` (`lib.rs:76-89`): six `u32` fields, modelled as `Nat` values
below 2^32 produced by explicit `% 2^32`. -/
structure SearchRange where
  byte_start : Nat
  line_start : Nat
  column_start : Nat
  byte_end : Nat
  line_end : Nat
  column_end : Nat
  deriving DecidableEq, Repr

/-- `find_matches` (`extraction.rs:108-130`, `github.rs:143-164`): one
`SearchRange` per `find_iter` span; the byte offsets are cast `as u32`. -/
def find_matches (content : String) (regex : Regex) : List SearchRange :=
  (regex.findIter content).map fun mat =>
    let start_pos := mat.1
    let end_pos := mat.2
    let slc := byte_to_line_col content start_pos
    let elc := byte_to_line_col content end_pos
    { byte_start := start_pos % u32Mod
      line_start := slc.1
      column_start := slc.2
      byte_end := end_pos % u32Mod
      line_end := elc.1
      column_end := elc.2 }

/-! ### Specification-side view of the conversion

The spec describes `byte_to_line_col` as counting line terminators strictly
before the offset and scalar values after the last terminator.  `takeBefore`
extracts exactly the scalars the loop scans; `trailRun` counts the trailing
terminator-free run. -/

/-- The characters of `cs` (with running byte index `i`) that begin strictly
before byte offset `p`. -/
def takeBefore : List Char → Nat → Nat → List Char
  | [], _, _ => []
  | c :: cs, i, p => if p ≤ i then [] else c :: takeBefore cs (i + c.utf8Size) p

/-- The number of scalar values after the last line terminator of `l`
(all of `l` if it has no terminator). -/
def trailRun (l : List Char) : Nat :=
  (l.reverse.takeWhile (fun c => c != '\n')).length

/-- The counting loop of the conversion, detached from byte positions. -/
def processW : List Char → Nat → Nat → Nat × Nat
  | [], line, col => (line, col)
  | c :: cs, line, col =>
    if c = '\n' then processW cs ((line + 1) % u32Mod) 1
    else processW cs line ((col + 1) % u32Mod)

/-- Spec-side line number at a byte offset: one plus the count of line
terminators strictly before it. -/
def lineAt (content : String) (p : Nat) : Nat :=
  1 + (takeBefore content.toList 0 p).count '\n'

/-- Spec-side column at a byte offset: one plus the count of scalar values
after the last line terminator strictly before it. -/
def colAt (content : String) (p : Nat) : Nat :=
  1 + trailRun (takeBefore content.toList 0 p)

theorem btlcAux_eq_processW (cs : List Char) :
    ∀ i p line col, btlcAux cs i p line col = processW (takeBefore cs i p) line col := by
  induction cs with
  | nil => intros; rfl
  | cons c cs ih =>
    intro i p line col
    by_cases hip : p ≤ i
    · simp [btlcAux, takeBefore, hip, processW]
    · by_cases hc : c = '\n' <;> simp [btlcAux, takeBefore, hip, hc, processW, ih]

theorem takeWhile_append' (p : α → Bool) (xs ys : List α) :
    (xs ++ ys).takeWhile p =
      if xs.all p = true then xs ++ ys.takeWhile p else xs.takeWhile p := by
  induction xs with
  | nil => simp
  | cons x xs ih =>
    by_cases hx : p x
    · simp only [List.cons_append, List.takeWhile_cons, hx, List.all_cons, ih,
        Bool.true_and, if_true]
      split <;> simp
    · simp [List.takeWhile_cons, hx, List.all_cons]

theorem trailRun_cons (c : Char) (cs : List Char) :
    trailRun (c :: cs) =
      if '\n' ∈ cs then trailRun cs
      else if c = '\n' then cs.length else cs.length + 1 := by
  unfold trailRun
  rw [List.reverse_cons, takeWhile_append']
  by_cases hm : '\n' ∈ cs
  · have hall : cs.reverse.all (fun x => x != '\n') = false := by
      rw [Bool.eq_false_iff]
      intro hb
      have := List.all_eq_true.mp hb '\n' (List.mem_reverse.mpr hm)
      simp at this
    rw [hall]
    simp [hm]
  · have hall : cs.reverse.all (fun x => x != '\n') = true := by
      rw [List.all_eq_true]
      intro x hx
      simp only [bne_iff_ne, ne_eq]
      intro hxe
      exact hm (hxe ▸ List.mem_reverse.mp hx)
    rw [hall]
    by_cases hc : c = '\n'
    · subst hc
      simp [hm, List.takeWhile]
    · have hcb : (c != '\n') = true := by simp [hc]
      simp [hm, hc, List.takeWhile, hcb]

theorem trailRun_of_not_mem {l : List Char} (h : '\n' ∉ l) : trailRun l = l.length := by
  unfold trailRun
  have hall : l.reverse.all (fun x => x != '\n') = true := by
    rw [List.all_eq_true]
    intro x hx
    simp only [bne_iff_ne, ne_eq]
    intro hxe
    exact h (hxe ▸ List.mem_reverse.mp hx)
  rw [List.takeWhile_eq_self_iff.mpr ?_, List.length_reverse]
  intro x hx
  exact List.all_eq_true.mp hall x hx

theorem u32Mod_pos : 0 < u32Mod := by simp [u32Mod]

theorem processW_spec (l : List Char) : ∀ line col, line < u32Mod → col < u32Mod →
    processW l line col =
      ((line + l.count '\n') % u32Mod,
       (if '\n' ∈ l then 1 + trailRun l else col + l.length) % u32Mod) := by
  induction l with
  | nil =>
    intro line col hl hc
    simp [processW, Nat.mod_eq_of_lt, hl, hc]
  | cons c cs ih =>
    intro line col hl hc
    by_cases hcn : c = '\n'
    · subst hcn
      rw [processW, if_pos rfl, ih _ _ (Nat.mod_lt _ u32Mod_pos) (by simp [u32Mod])]
      rw [trailRun_cons]
      have hmem : ('\n' : Char) ∈ '\n' :: cs := List.mem_cons_self _ _
      simp only [hmem, if_pos, List.count_cons_self, Prod.mk.injEq]
      refine ⟨?_, ?_⟩
      · show ((line + 1) % u32Mod + cs.count '\n') % u32Mod =
          (line + (cs.count '\n' + 1)) % u32Mod
        simp only [u32Mod] at *
        omega
      · by_cases hm : '\n' ∈ cs <;> simp [hm]
    · rw [processW, if_neg hcn, ih _ _ hl (Nat.mod_lt _ u32Mod_pos)]
      have hcount : (c :: cs).count '\n' = cs.count '\n' := by
        rw [List.count_cons]
        simp [hcn]
      have hmem : ('\n' ∈ c :: cs) ↔ ('\n' ∈ cs) := by
        constructor
        · intro h
          rcases List.mem_cons.mp h with h | h
          · exact absurd h.symm hcn
          · exact h
        · exact fun h => List.mem_cons_of_mem _ h
      rw [hcount, trailRun_cons]
      by_cases hm : '\n' ∈ cs
      · simp [hm, hmem]
      · simp only [hm, hmem, if_neg, if_false, hcn, List.length_cons, Prod.mk.injEq]
        refine ⟨trivial, ?_⟩
        show ((col + 1) % u32Mod + cs.length) % u32Mod = (col + (cs.length + 1)) % u32Mod
        rw [Nat.mod_add_mod]
        congr 1
        omega

theorem takeBefore_length_le (cs : List Char) :
    ∀ i p, (takeBefore cs i p).length ≤ cs.length := by
  induction cs with
  | nil => intro i p; simp [takeBefore]
  | cons c cs ih =>
    intro i p
    by_cases hip : p ≤ i <;> simp [takeBefore, hip]
    exact ih _ _

theorem length_le_utf8Len (cs : List Char) : cs.length ≤ utf8Len cs := by
  induction cs with
  | nil => simp [utf8Len]
  | cons c cs ih =>
    have := Char.utf8Size_pos c
    simp only [List.length_cons, utf8Len]
    omega

/-- For texts whose byte length leaves the `u32` counters in range, the
conversion computes exactly the spec-side line/column counts. -/
theorem byte_to_line_col_spec (content : String) (p : Nat)
    (h : textByteLen content ≤ u32Mod - 2) :
    byte_to_line_col content p = (lineAt content p, colAt content p) := by
  unfold byte_to_line_col lineAt colAt
  rw [btlcAux_eq_processW]
  have hlen : (takeBefore content.toList 0 p).length ≤ u32Mod - 2 :=
    le_trans (le_trans (takeBefore_length_le _ _ _) (length_le_utf8Len _)) h
  rw [processW_spec _ 1 1 (by simp [u32Mod]) (by simp [u32Mod])]
  have hcount : (takeBefore content.toList 0 p).count '\n' ≤
      (takeBefore content.toList 0 p).length := List.count_le_length _ _
  have htrail : trailRun (takeBefore content.toList 0 p) ≤
      (takeBefore content.toList 0 p).length := by
    unfold trailRun
    calc ((takeBefore content.toList 0 p).reverse.takeWhile (fun c => c != '\n')).length
        ≤ (takeBefore content.toList 0 p).reverse.length :=
          (List.takeWhile_sublist _).length_le
      _ = (takeBefore content.toList 0 p).length := List.length_reverse _
  simp only [Prod.mk.injEq]
  refine ⟨?_, ?_⟩
  · show (1 + (takeBefore content.toList 0 p).count '\n') % u32Mod =
      1 + (takeBefore content.toList 0 p).count '\n'
    apply Nat.mod_eq_of_lt
    simp only [u32Mod] at *
    omega
  · by_cases hm : '\n' ∈ takeBefore content.toList 0 p
    · simp only [hm, if_pos]
      apply Nat.mod_eq_of_lt
      simp only [u32Mod] at *
      omega
    · simp only [hm, if_neg, if_false]
      rw [trailRun_of_not_mem hm]
      apply Nat.mod_eq_of_lt
      simp only [u32Mod] at *
      omega

theorem takeBefore_none (cs : List Char) (i p : Nat) (h : p ≤ i) :
    takeBefore cs i p = [] := by
  cases cs <;> simp [takeBefore, h]

theorem takeBefore_full (cs : List Char) :
    ∀ i p, i + utf8Len cs ≤ p → takeBefore cs i p = cs := by
  induction cs with
  | nil => intros; rfl
  | cons c cs ih =>
    intro i p h
    have hcpos := Char.utf8Size_pos c
    simp only [utf8Len] at h
    have hip : ¬ p ≤ i := by omega
    simp only [takeBefore, if_neg hip]
    rw [ih (i + c.utf8Size) p (by omega)]

theorem takeBefore_append (xs ys : List Char) :
    ∀ i p, i + utf8Len xs ≤ p →
      takeBefore (xs ++ ys) i p = xs ++ takeBefore ys (i + utf8Len xs) p := by
  induction xs with
  | nil =>
    intro i p _
    simp [utf8Len]
  | cons c cs ih =>
    intro i p h
    have hcpos := Char.utf8Size_pos c
    simp only [utf8Len] at h
    have hip : ¬ p ≤ i := by omega
    simp only [List.cons_append, takeBefore, List.append_eq, if_neg hip]
    rw [ih (i + c.utf8Size) p (by omega)]
    simp only [utf8Len, List.cons.injEq, true_and]
    congr 2
    omega

theorem takeBefore_mono (cs : List Char) :
    ∀ i p q, p ≤ q → ∃ rest, takeBefore cs i q = takeBefore cs i p ++ rest := by
  induction cs with
  | nil => intro i p q _; exact ⟨[], rfl⟩
  | cons c cs ih =>
    intro i p q hpq
    by_cases hip : p ≤ i
    · refine ⟨takeBefore (c :: cs) i q, ?_⟩
      simp [takeBefore, hip]
    · have hiq : ¬ q ≤ i := by omega
      obtain ⟨rest, hr⟩ := ih (i + c.utf8Size) p q hpq
      refine ⟨rest, ?_⟩
      simp [takeBefore, hip, hiq, hr]

theorem trailRun_append_of_not_mem {a rest : List Char} (h : '\n' ∉ rest) :
    trailRun (a ++ rest) = trailRun a + rest.length := by
  unfold trailRun
  rw [List.reverse_append, takeWhile_append']
  have hall : rest.reverse.all (fun x => x != '\n') = true := by
    rw [List.all_eq_true]
    intro x hx
    simp only [bne_iff_ne, ne_eq]
    intro hxe
    exact h (hxe ▸ List.mem_reverse.mp hx)
  rw [hall]
  simp [Nat.add_comm]

/-! ## Errors (`error.rs`)

Variants that carry foreign error types (`cargo_metadata::Error`,
`semver::Error`, `reqwest::Error`, `octocrab::Error`, io and decode errors) are
modelled as carrying that error's message; the source itself also constructs
several of these variants directly from `format!` strings. -/

inductive EgError where
  | ProjectError (msg : String)
  | VersionError (msg : String)
  | CargoHomeNotFound (msg : String)
  | CacheError (msg : String)
  | DownloadError (msg : String)
  | ExtractionError (msg : String)
  | GitHubError (msg : String)
  | IoError (msg : String)
  | CrateNotFound (name : String)
  | NoMatchingVersions (crate_name : String) (constraint : String)
  | NoRepositoryUrl (name : String)
  | InvalidGitHubUrl (url : String)
  | Base64Error (msg : String)
  | Utf8Error (msg : String)
  | Other (msg : String)
  deriving DecidableEq, Repr

/-! ## Result data model (`lib.rs`) -/

/-- `Example` (`lib.rs:54-72`): an example artifact, on-disk (path only,
content read lazily) or in-memory (buffered contents). -/
inductive Example where
  | ExampleOnDisk (path : List String) (search_matches : List SearchRange)
  | ExampleInMemory (filename : String) (contents : String)
      (search_matches : List SearchRange)
  deriving DecidableEq, Repr

/-- `Example::search_matches` (`mod.rs:90-98`). -/
def Example.search_matches : Example → List SearchRange
  | .ExampleOnDisk _ m => m
  | .ExampleInMemory _ _ m => m

/-- `SearchResult` (`lib.rs:41-51`). -/
structure SearchResult where
  version : String
  total_examples : Nat
  matched_examples : Nat
  examples : List Example
  deriving DecidableEq, Repr

/-! ## Archive extraction (`extraction.rs`) -/

/-- A tar-archive entry after gzip and tar decoding: its intra-archive path
(as components) and its UTF-8 text content. -/
structure TarEntry where
  path : List String
  contents : String
  deriving DecidableEq, Repr

/-- Rust `Path::extension` applied to the last path component: the portion of
the file name after the final dot; `none` when there is no dot, or when the
only dot is the leading one of a hidden file. -/
def fileExtension (components : List String) : Option String :=
  match components.getLast? with
  | none => none
  | some name =>
    match (splitOnChar '.' name.toList).map String.mk with
    | [] => none
    | [_] => none
    | "" :: [_] => none
    | parts => parts.getLast?

/-- `is_example_file` (`extraction.rs:101-105`): some path component equals
`examples` and the extension is `rs`. -/
def is_example_file (path : List String) : Bool :=
  path.any (fun c => c == "examples") && (fileExtension path == some "rs")

/-- `path.file_name().and_then(|n| n.to_str()).unwrap_or("unknown")`
(`extraction.rs:84-87`). -/
def entryFileName (path : List String) : String :=
  (path.getLast?).getD "unknown"

/-- `extract_examples_from_reader` (`extraction.rs:53-98`): walk the entry
stream in order, keep example files, attach the match set (empty when no
pattern was supplied), buffer contents in memory. -/
def extract_examples_from_reader : List TarEntry → Option Regex → List Example
  | [], _ => []
  | entry :: rest, pattern =>
    if is_example_file entry.path then
      let search_matches :=
        match pattern with
        | some regex => find_matches entry.contents regex
        | none => []
      Example.ExampleInMemory (entryFileName entry.path) entry.contents search_matches
        :: extract_examples_from_reader rest pattern
    else
      extract_examples_from_reader rest pattern

/-! ## Collaborator environment

Everything the pipeline reaches over the network, a subprocess or the disk is a
parameter: the search is a pure function of this record.  `Except String`
models a collaborator call that can fail with an error message. -/

/-- One item of a repository content listing (`octocrab` model). -/
structure GhItem where
  name : String
  isFile : Bool
  content : Option String
  deriving DecidableEq, Repr

/-- Crate metadata reported by the registry (`crates_io_api` model). -/
structure CrateData where
  max_version : String
  repository : Option String
  deriving DecidableEq, Repr

/-- Events recorded by the instrumented pipeline, one per collaborator query:
`registry` for `crates_io_api` calls, `download` for the archive HTTP GET,
`disk` for the cargo-cache check, `github` for the content API,
`metadata` for the `cargo metadata` subprocess. -/
inductive Query where
  | registry
  | download
  | disk
  | github
  | metadata
  deriving DecidableEq, Repr

structure SearchEnv where
  metadata_packages : Except String (List (String × String))
  crate_versions : String → Except String (List String)
  crate_info : String → Except String CrateData
  cached_archive : String → String → Option (List TarEntry)
  download_archive : String → String → Except String (List TarEntry)
  gh_token : Option String
  gh_contents : String → String → Except String (List GhItem)
  base64_decode : String → Except String (List Nat)
  utf8_decode : List Nat → Except String String

/-! ## Version resolution (`version.rs`) -/

/-- `find_in_current_project` (`version.rs:33-49`): the first package of the
resolved dependency graph with the given name; absence (or a metadata failure)
is a `ProjectError`. -/
def find_in_current_project (env : SearchEnv) (crate_name : String) :
    Except EgError String :=
  match env.metadata_packages with
  | .error e => .error (.ProjectError e)
  | .ok packages =>
    match packages.find? (fun p => p.1 == crate_name) with
    | some p => .ok p.2
    | none =>
      .error (.ProjectError
        ("Crate '" ++ crate_name ++ "' not found in current project dependencies"))

/-- `get_latest_version` (`version.rs:74-84`): one registry query; the
registry's reported `max_version`. -/
def get_latest_version (env : SearchEnv) (crate_name : String) :
    List Query × Except EgError String :=
  ([.registry],
   match env.crate_info crate_name with
   | .error e => .error (.DownloadError ("Failed to get crate info: " ++ e))
   | .ok crate_data => .ok crate_data.max_version)

/-- `get_available_versions` (`version.rs:87-104`): one registry query; parse
every reported version string, silently discarding parse failures. -/
def get_available_versions (env : SearchEnv) (crate_name : String) :
    List Query × Except EgError (List Version) :=
  ([.registry],
   match env.crate_versions crate_name with
   | .error e => .error (.DownloadError ("Failed to get versions: " ++ e))
   | .ok versions => .ok (versions.filterMap Version.parse))

/-- `resolve_version_constraint` (`version.rs:52-71`): parse the constraint,
fetch the available versions, filter by the constraint, sort, take the last
element, or fail when no version matches. -/
def resolve_version_constraint (env : SearchEnv) (crate_name constraint : String) :
    List Query × Except EgError String :=
  match VersionReq.parse constraint with
  | .error e => ([], .error (.VersionError e))
  | .ok req =>
    match get_available_versions env crate_name with
    | (t, .error e) => (t, .error e)
    | (t, .ok available_versions) =>
      let matching_versions := available_versions.filter (fun v => req.matches v)
      let sorted := stableSort Version.leb matching_versions
      (t,
       match sorted.getLast? with
       | some v => .ok v.toString
       | none =>
         .error (.VersionError
           ("No versions of '" ++ crate_name ++ "' match constraint '" ++
             constraint ++ "'")))

/-- `resolve_version` (`version.rs:17-30`): explicit constraint → current
project → registry latest; a tier-2 miss is swallowed, not surfaced. -/
def resolve_version (env : SearchEnv) (crate_name : String)
    (version_spec : Option String) : List Query × Except EgError String :=
  match version_spec with
  | some spec => resolve_version_constraint env crate_name spec
  | none =>
    match find_in_current_project env crate_name with
    | .ok version => ([.metadata], .ok version)
    | .error _ =>
      let r := get_latest_version env crate_name
      (.metadata :: r.1, r.2)

/-! ## GitHub fallback (`github.rs`) -/

/-- `get_repository_url` (`github.rs:38-49`): one registry query; a missing
repository URL is a `GitHubError`. -/
def get_repository_url (env : SearchEnv) (crate_name : String) :
    List Query × Except EgError String :=
  ([.registry],
   match env.crate_info crate_name with
   | .error e => .error (.DownloadError ("Failed to get crate info: " ++ e))
   | .ok crate_data =>
     match crate_data.repository with
     | none =>
       .error (.GitHubError ("No repository URL found for crate '" ++ crate_name ++ "'"))
     | some url => .ok url)

/-- Rust `str::contains`. -/
def containsSubstr (s sub : String) : Bool := containsSub s.toList sub.toList

/-- `is_github_url` (`github.rs:52-54`): a substring test, not a host check. -/
def is_github_url (url : String) : Bool := containsSubstr url "github.com"

def trimEndMatchesAux : Nat → String → String → String
  | 0, s, _ => s
  | n + 1, s, suffix =>
    if !(suffix == "") && strEndsWith s suffix then
      trimEndMatchesAux n (strDropRight s suffix.toList.length) suffix
    else s

/-- Rust `str::trim_end_matches`: repeatedly strip the suffix. -/
def trimEndMatches (s suffix : String) : String :=
  trimEndMatchesAux s.toList.length s suffix

/-- `parse_github_url` (`github.rs:57-73`): strip a trailing `.git`, split on
`/`, take the last two segments. -/
def parse_github_url (url : String) : Except EgError (String × String) :=
  let url := trimEndMatches url ".git"
  let parts := (splitOnChar '/' url.toList).map String.mk
  if parts.length ≥ 2 then
    .ok (parts.getD (parts.length - 2) "", parts.getD (parts.length - 1) "")
  else
    .error (.GitHubError ("Invalid GitHub URL format: " ++ url))

/-- `encoded_content.replace('\n', "")` (`github.rs:111`). -/
def stripNewlines (s : String) : String :=
  String.mk (s.toList.filter (fun c => c != '\n'))

/-- The per-item loop of `search_github_examples` (`github.rs:106-131`): files
ending in `.rs` whose content was returned are base64- and UTF-8-decoded
(either decode failure aborts the fallback with an error), matched against the
pattern and collected in memory. -/
def processGhItems (env : SearchEnv) (pattern : Option Regex) :
    List GhItem → Except EgError (List Example)
  | [] => .ok []
  | item :: rest =>
    if item.isFile then
      if strEndsWith item.name ".rs" then
        match item.content with
        | some encoded_content =>
          match env.base64_decode (stripNewlines encoded_content) with
          | .error e => .error (.GitHubError ("Failed to decode file content: " ++ e))
          | .ok decoded_bytes =>
            match env.utf8_decode decoded_bytes with
            | .error e => .error (.GitHubError ("Invalid UTF-8 in file: " ++ e))
            | .ok content =>
              let search_matches :=
                match pattern with
                | some regex => find_matches content regex
                | none => []
              match processGhItems env pattern rest with
              | .error e => .error e
              | .ok tail =>
                .ok (Example.ExampleInMemory item.name content search_matches :: tail)
        | none => processGhItems env pattern rest
      else processGhItems env pattern rest
    else processGhItems env pattern rest

/-- `search_github_examples` (`github.rs:76-140`): one content-API query; any
listing failure — including a missing `examples` directory but also transport
failures — degrades to an empty example set (`Err(_) => Ok(Vec::new())`), while
decode failures inside a successful listing propagate. -/
def search_github_examples (env : SearchEnv) (owner repo : String)
    (pattern : Option Regex) : List Query × Except EgError (List Example) :=
  ([.github],
   match env.gh_contents owner repo with
   | .error _ => .ok []
   | .ok content_items => processGhItems env pattern content_items)

/-- `search_examples` (`github.rs:16-35`): repository-URL lookup failures
(including a missing URL) propagate with `?`; a URL not recognized as GitHub's
yields an empty set; otherwise search the `examples` directory. -/
def search_examples (env : SearchEnv) (crate_name version : String)
    (pattern : Option Regex) : List Query × Except EgError (List Example) :=
  match get_repository_url env crate_name with
  | (t, .error e) => (t, .error e)
  | (t, .ok repo_url) =>
    if !is_github_url repo_url then (t, .ok [])
    else
      match parse_github_url repo_url with
      | .error e => (t, .error e)
      | .ok (owner, repo) =>
        let r := search_github_examples env owner repo pattern
        (t ++ r.1, r.2)

/-! ## Orchestrator (`mod.rs`) -/

/-- `RustCrateSearch` (`mod.rs:17-21`). -/
structure RustCrateSearch where
  crate_name : String
  version_spec : Option String
  pattern : Option Regex

/-- `RustCrateSearch::new` (`mod.rs:25-31`). -/
def RustCrateSearch.new (name : String) : RustCrateSearch :=
  { crate_name := name, version_spec := none, pattern := none }

/-- `RustCrateSearch::version` (`mod.rs:34-37`). -/
def RustCrateSearch.version (self : RustCrateSearch) (v : String) : RustCrateSearch :=
  { self with version_spec := some v }

/-- The compiled-regex factory (the `regex` crate's `Regex::new`). -/
structure RegexEngine where
  compile : String → Except String Regex

/-- `RustCrateSearch::pattern` (`mod.rs:40-45`), named `set_pattern` here
because `pattern` is the field it sets: compile the pattern at builder time,
before `search` can run, failing with the spec's `InvalidPattern` error
(realized by the source as `EgError::Other("Invalid regex pattern: ...")`). -/
def RustCrateSearch.set_pattern (self : RustCrateSearch) (engine : RegexEngine)
    (pattern : String) : Except EgError RustCrateSearch :=
  match engine.compile pattern with
  | .error e => .error (.Other ("Invalid regex pattern: " ++ e))
  | .ok regex => .ok { self with pattern := some regex }

/-- Step 4 of `RustCrateSearch::search` (`mod.rs:73-86`): derive the counts —
`matched_examples` counts examples with a nonempty match set only when a
pattern is present, and equals `total_examples` otherwise. -/
def build_result (self : RustCrateSearch) (version : String)
    (final_examples : List Example) : SearchResult :=
  let total_examples := final_examples.length
  let matched_examples :=
    if self.pattern.isSome then
      (final_examples.filter (fun e => !e.search_matches.isEmpty)).length
    else total_examples
  SearchResult.mk version total_examples matched_examples final_examples

/-- Step 3 of `RustCrateSearch::search` (`mod.rs:65-71`) followed by step 4:
fall back to the repository when the archive yielded no examples, then build
the result. -/
def after_extraction (self : RustCrateSearch) (env : SearchEnv) (version : String)
    (examples : List Example) : List Query × Except EgError SearchResult :=
  if examples.isEmpty then
    match search_examples env self.crate_name version self.pattern with
    | (t, .error e) => (t, .error e)
    | (t, .ok final_examples) => (t, .ok (build_result self version final_examples))
  else ([], .ok (build_result self version examples))

/-- `RustCrateSearch::search` (`mod.rs:48-87`): resolve the version, extract
from the cached archive if present (`.disk`) or from a fresh download
(`.download`), fall back to the repository when the set is empty, aggregate.
`CacheManager::new` is modelled as succeeding. -/
def RustCrateSearch.search (self : RustCrateSearch) (env : SearchEnv) :
    List Query × Except EgError SearchResult :=
  match resolve_version env self.crate_name self.version_spec with
  | (t, .error e) => (t, .error e)
  | (t, .ok version) =>
    match env.cached_archive self.crate_name version with
    | some entries =>
      let examples := extract_examples_from_reader entries self.pattern
      let r := after_extraction self env version examples
      (t ++ [.disk] ++ r.1, r.2)
    | none =>
      match env.download_archive self.crate_name version with
      | .error e => (t ++ [.disk, .download], .error (.DownloadError e))
      | .ok entries =>
        let examples := extract_examples_from_reader entries self.pattern
        let r := after_extraction self env version examples
        (t ++ [.disk, .download] ++ r.1, r.2)

/-- The pattern-and-search tail of the caller flow, for an already-built
builder: compile the pattern (counting compilations) if one was supplied, then
search. -/
def runSearchWithBuilder (engine : RegexEngine) (env : SearchEnv)
    (b1 : RustCrateSearch) (pattern_str : Option String) :
    Nat × List Query × Except EgError SearchResult :=
  match pattern_str with
  | none =>
    let r := b1.search env
    (0, r.1, r.2)
  | some p =>
    match b1.set_pattern engine p with
    | .error e => (1, [], .error e)
    | .ok b2 =>
      let r := b2.search env
      (1, r.1, r.2)

/-- The caller-facing flow `Eg::rust_crate(name)[.version(v)][.pattern(p)?].search()`
(`lib.rs:33-38`).  The first component counts how many times the regex engine
was invoked to compile the caller's pattern. -/
def runSearch (engine : RegexEngine) (env : SearchEnv) (name : String)
    (version_spec : Option String) (pattern_str : Option String) :
    Nat × List Query × Except EgError SearchResult :=
  runSearchWithBuilder engine env
    (match version_spec with
     | some v => (RustCrateSearch.new name).version v
     | none => RustCrateSearch.new name)
    pattern_str

/-! ## Helper lemmas for the claims -/

theorem mem_insertLe (le : α → α → Bool) (a x : α) :
    ∀ l, x ∈ insertLe le a l ↔ x = a ∨ x ∈ l := by
  intro l
  induction l with
  | nil => simp [insertLe]
  | cons b bs ih =>
    simp only [insertLe]
    split
    · simp
    · simp only [List.mem_cons, ih]
      tauto

theorem mem_stableSort (le : α → α → Bool) (x : α) :
    ∀ l, x ∈ stableSort le l ↔ x ∈ l := by
  intro l
  induction l with
  | nil => simp [stableSort]
  | cons a as ih =>
    simp only [stableSort, mem_insertLe, ih, List.mem_cons]

theorem pairwise_insertLe (le : α → α → Bool)
    (htrans : ∀ a b c, le a b → le b c → le a c)
    (htotal : ∀ a b, le a b || le b a) (a : α) :
    ∀ l, l.Pairwise (fun x y => le x y = true) →
      (insertLe le a l).Pairwise (fun x y => le x y = true) := by
  intro l
  induction l with
  | nil => intro _; simp [insertLe]
  | cons b bs ih =>
    intro hp
    obtain ⟨hb, hbs⟩ := List.pairwise_cons.mp hp
    simp only [insertLe]
    split
    · rename_i hab
      refine List.pairwise_cons.mpr ⟨?_, hp⟩
      intro x hx
      rcases List.mem_cons.mp hx with hxb | hxbs
      · subst hxb; exact hab
      · exact htrans a b x hab (hb x hxbs)
    · rename_i hab
      have hba : le b a = true := by
        rcases Bool.or_eq_true_iff.mp (htotal a b) with h | h
        · exact absurd h hab
        · exact h
      refine List.pairwise_cons.mpr ⟨?_, ih hbs⟩
      intro x hx
      rcases (mem_insertLe le a x bs).mp hx with hxa | hxbs
      · subst hxa; exact hba
      · exact hb x hxbs

theorem pairwise_stableSort (le : α → α → Bool)
    (htrans : ∀ a b c, le a b → le b c → le a c)
    (htotal : ∀ a b, le a b || le b a) :
    ∀ l, (stableSort le l).Pairwise (fun x y => le x y = true) := by
  intro l
  induction l with
  | nil => simp [stableSort]
  | cons a as ih => exact pairwise_insertLe le htrans htotal a _ ih

theorem stableSort_eq_nil_iff (le : α → α → Bool) (l : List α) :
    stableSort le l = [] ↔ l = [] := by
  cases l with
  | nil => simp [stableSort]
  | cons a as =>
    simp only [stableSort]
    constructor
    · intro h
      have : a ∈ insertLe le a (stableSort le as) := (mem_insertLe le a a _).mpr (Or.inl rfl)
      rw [h] at this
      simp at this
    · intro h; cases h

theorem pairwise_getLast?_ge {R : α → α → Prop} :
    ∀ (l : List α), l.Pairwise R → ∀ x ∈ l, ∀ m, l.getLast? = some m → x = m ∨ R x m := by
  intro l
  induction l with
  | nil => intro _ x hx; simp at hx
  | cons a t ih =>
    intro hp x hx m hm
    cases t with
    | nil =>
      simp at hx hm
      subst hx; subst hm
      exact Or.inl rfl
    | cons b t' =>
      rw [List.getLast?_cons_cons] at hm
      rcases List.mem_cons.mp hx with hxa | hxt
      · subst hxa
        right
        exact (List.pairwise_cons.mp hp).1 m (List.mem_of_getLast?_eq_some hm)
      · exact ih (List.pairwise_cons.mp hp).2 x hxt m hm

/-- `sort()` then `last()`: the returned element belongs to the list and is a
maximum for `Version.leb`. -/
theorem stableSort_getLast?_max (l : List Version) (v : Version)
    (h : (stableSort Version.leb l).getLast? = some v) :
    v ∈ l ∧ ∀ w ∈ l, Version.leb w v = true := by
  have hperm : v ∈ l :=
    (mem_stableSort _ _ _).mp (List.mem_of_getLast?_eq_some h)
  refine ⟨hperm, fun w hw => ?_⟩
  have hw' : w ∈ stableSort Version.leb l := (mem_stableSort _ _ _).mpr hw
  have hsorted := pairwise_stableSort Version.leb
    (fun a b c => versionLeb_trans a b c) (fun a b => versionLeb_total a b) l
  rcases pairwise_getLast?_ge _ hsorted w hw' v h with heq | hle
  · subst heq; exact versionLeb_refl w
  · exact hle

theorem stableSort_getLast?_none (l : List Version) :
    (stableSort Version.leb l).getLast? = none ↔ l = [] := by
  rw [List.getLast?_eq_none_iff]
  exact stableSort_eq_nil_iff _ _

/-! ## C1: explicit version-constraint resolution -/

/-- **C1.**  With an explicit constraint that parses, resolution issues the
registry query for the full version list, parses each entry (silently
discarding failures), filters by the constraint, and returns the rendering of
a maximum (under the semver order) of the filtered set; it fails with the
`NoMatchingVersion` error (realized as `EgError::VersionError` with the
"No versions ... match constraint" message) exactly when the filtered set is
empty. -/
theorem C1_explicit_constraint_resolution (env : SearchEnv)
    (crate_name constraint : String) (req : VersionReq) (raw : List String)
    (hreq : VersionReq.parse constraint = .ok req)
    (hvers : env.crate_versions crate_name = .ok raw) :
    ((raw.filterMap Version.parse).filter (fun v => req.matches v) = [] →
      resolve_version_constraint env crate_name constraint =
        ([.registry], .error (.VersionError
          ("No versions of '" ++ crate_name ++ "' match constraint '" ++
            constraint ++ "'")))) ∧
    ((raw.filterMap Version.parse).filter (fun v => req.matches v) ≠ [] →
      ∃ v ∈ (raw.filterMap Version.parse).filter (fun v => req.matches v),
        resolve_version_constraint env crate_name constraint =
          ([.registry], .ok v.toString) ∧
        ∀ w ∈ (raw.filterMap Version.parse).filter (fun v => req.matches v),
          Version.leb w v = true) := by
  have hunfold : resolve_version_constraint env crate_name constraint =
      (([.registry] : List Query),
       match (stableSort Version.leb ((raw.filterMap Version.parse).filter
           (fun v => req.matches v))).getLast? with
       | some v => .ok v.toString
       | none =>
         .error (.VersionError
           ("No versions of '" ++ crate_name ++ "' match constraint '" ++
             constraint ++ "'"))) := by
    unfold resolve_version_constraint
    rw [hreq]
    unfold get_available_versions
    rw [hvers]
  constructor
  · intro hempty
    rw [hunfold]
    rw [(stableSort_getLast?_none _).mpr hempty]
  · intro hne
    rcases hlast : (stableSort Version.leb ((raw.filterMap Version.parse).filter
        (fun v => req.matches v))).getLast? with _ | v
    · exact absurd ((stableSort_getLast?_none _).mp hlast) hne
    · obtain ⟨hmem, hmax⟩ := stableSort_getLast?_max _ _ hlast
      refine ⟨v, hmem, ?_, hmax⟩
      rw [hunfold, hlast]

/-- Witness for C1, realizing the spec's worked example: constraint `^1.0`
over available versions 0.9.0, 1.0.0, 1.2.3, 2.0.0 resolves to `1.2.3`. -/
def envVersions : SearchEnv where
  metadata_packages := .error "no project"
  crate_versions := fun _ => .ok ["0.9.0", "1.0.0", "1.2.3", "2.0.0"]
  crate_info := fun _ => .error "offline"
  cached_archive := fun _ _ => none
  download_archive := fun _ _ => .error "offline"
  gh_token := none
  gh_contents := fun _ _ => .error "offline"
  base64_decode := fun _ => .error "offline"
  utf8_decode := fun _ => .error "offline"

theorem C1_witness :
    (VersionReq.parse "^1.0" =
      .ok ⟨[⟨.caret, 1, some 0, none, []⟩]⟩) ∧
    (resolve_version_constraint envVersions "tokio" "^1.0").2 = .ok "1.2.3" ∧
    (∃ v ∈ ((["0.9.0", "1.0.0", "1.2.3", "2.0.0"].filterMap Version.parse).filter
        (fun v => VersionReq.matches ⟨[⟨.caret, 1, some 0, none, []⟩]⟩ v)),
      resolve_version_constraint envVersions "tokio" "^1.0" =
        ([.registry], .ok v.toString) ∧
      ∀ w ∈ ((["0.9.0", "1.0.0", "1.2.3", "2.0.0"].filterMap Version.parse).filter
          (fun v => VersionReq.matches ⟨[⟨.caret, 1, some 0, none, []⟩]⟩ v)),
        Version.leb w v = true) := by
  refine ⟨rfl, rfl, ?_⟩
  exact (C1_explicit_constraint_resolution envVersions "tokio" "^1.0"
    ⟨[⟨.caret, 1, some 0, none, []⟩]⟩ ["0.9.0", "1.0.0", "1.2.3", "2.0.0"]
    rfl rfl).2 (by decide)

/-! ## C2: no-constraint tiers -/

/-- **C2.**  With no constraint: when the crate is pinned in the current
project's dependency graph, resolution returns exactly that pinned version and
performs no registry query (the trace holds only the `cargo metadata` event);
when it is absent, resolution falls through without error and returns the
registry's reported maximum version. -/
theorem C2_no_constraint_tiers (env : SearchEnv) (crate_name : String)
    (pkgs : List (String × String))
    (hmeta : env.metadata_packages = .ok pkgs) :
    ((∀ p ∈ pkgs, pkgs.find? (fun q => q.1 == crate_name) = some p →
        resolve_version env crate_name none = ([.metadata], .ok p.2)) ∧
     (pkgs.find? (fun q => q.1 == crate_name) = none →
        ∀ cd, env.crate_info crate_name = .ok cd →
          resolve_version env crate_name none =
            ([.metadata, .registry], .ok cd.max_version))) := by
  constructor
  · intro p _ hfind
    have h1 : find_in_current_project env crate_name = .ok p.2 := by
      simp only [find_in_current_project, hmeta, hfind]
    simp only [resolve_version, h1]
  · intro hfind cd hinfo
    have h1 : find_in_current_project env crate_name =
        .error (.ProjectError
          ("Crate '" ++ crate_name ++ "' not found in current project dependencies")) := by
      simp only [find_in_current_project, hmeta, hfind]
    simp only [resolve_version, h1, get_latest_version, hinfo]

/-- Witness for C2: crate pinned at 3.4.1 resolves to 3.4.1 with no registry
query; an absent crate falls through to the registry's max version. -/
def envProject : SearchEnv :=
  { envVersions with
    metadata_packages := .ok [("serde", "3.4.1")]
    crate_info := fun _ => .ok ⟨"9.9.9", none⟩ }

theorem C2_witness :
    (resolve_version envProject "serde" none = ([.metadata], .ok "3.4.1")) ∧
    (resolve_version envProject "rand" none = ([.metadata, .registry], .ok "9.9.9")) := by
  constructor
  · exact (C2_no_constraint_tiers envProject "serde" [("serde", "3.4.1")] rfl).1
      ("serde", "3.4.1") (by decide) (by decide)
  · exact (C2_no_constraint_tiers envProject "rand" [("serde", "3.4.1")] rfl).2
      (by decide) ⟨"9.9.9", none⟩ rfl


/-! ## C3, C4, C5: the pattern matcher -/

theorem lineAt_mono (content : String) (p q : Nat) (hpq : p ≤ q) :
    lineAt content p ≤ lineAt content q ∧
    (lineAt content p = lineAt content q → colAt content p ≤ colAt content q) := by
  obtain ⟨rest, hr⟩ := takeBefore_mono content.toList 0 p q hpq
  unfold lineAt colAt
  rw [hr, List.count_append]
  constructor
  · omega
  · intro heq
    have hcount : rest.count '\n' = 0 := by omega
    have hmem : '\n' ∉ rest := List.count_eq_zero.mp hcount
    rw [trailRun_append_of_not_mem hmem]
    omega

/-- **C3 (amended).**  For every text whose byte length is at most 2^32 - 2 (so
that the `u32` byte offsets and line/column counters cannot wrap), every match
location satisfies `byte_start <= byte_end`, `line_start <= line_end`, equality
of lines implies `column_start <= column_end`, and the (line, column) pair at
the start never exceeds the pair at the end lexicographically. -/
theorem C3_amended_match_location_invariants (content : String) (regex : Regex)
    (hsize : textByteLen content ≤ 4294967294) :
    ∀ r ∈ find_matches content regex,
      r.byte_start ≤ r.byte_end ∧
      r.line_start ≤ r.line_end ∧
      (r.line_start = r.line_end → r.column_start ≤ r.column_end) ∧
      (r.line_start < r.line_end ∨
        (r.line_start = r.line_end ∧ r.column_start ≤ r.column_end)) := by
  intro r hr
  unfold find_matches at hr
  rcases List.mem_map.mp hr with ⟨mat, hmat, hreq⟩
  obtain ⟨hse, hsz⟩ := regex.wf content mat hmat
  have hM : textByteLen content ≤ u32Mod - 2 := by
    simp only [u32Mod]; omega
  have h1 := byte_to_line_col_spec content mat.1 hM
  have h2 := byte_to_line_col_spec content mat.2 hM
  have hmono := lineAt_mono content mat.1 mat.2 hse
  subst hreq
  simp only [h1, h2]
  have hb1 : mat.1 % u32Mod = mat.1 :=
    Nat.mod_eq_of_lt (by simp only [u32Mod] at *; omega)
  have hb2 : mat.2 % u32Mod = mat.2 :=
    Nat.mod_eq_of_lt (by simp only [u32Mod] at *; omega)
  refine ⟨by rw [hb1, hb2]; exact hse, hmono.1, hmono.2, ?_⟩
  rcases Nat.lt_or_ge (lineAt content mat.1) (lineAt content mat.2) with h | h
  · exact Or.inl h
  · have heq : lineAt content mat.1 = lineAt content mat.2 :=
      Nat.le_antisymm hmono.1 h
    exact Or.inr ⟨heq, hmono.2 heq⟩

/-- A concrete compiled pattern for the witness: on any text of at least two
bytes it matches the first byte (like the regex `^.` on ASCII text). -/
def headRegex : Regex where
  findIter := fun s => if 2 ≤ textByteLen s then [(0, 1)] else []
  wf := by
    intro s m hm
    dsimp only at hm
    split at hm
    · rename_i h
      simp only [List.mem_singleton] at hm
      subst hm
      refine ⟨by omega, ?_⟩
      show 1 ≤ textByteLen s
      omega
    · simp at hm

theorem C3_witness :
    textByteLen "ab" ≤ 4294967294 ∧
    (({ byte_start := 0, line_start := 1, column_start := 1, byte_end := 1,
        line_end := 1, column_end := 2 } : SearchRange) ∈ find_matches "ab" headRegex) ∧
    ((0 : Nat) ≤ 1 ∧ (1 : Nat) ≤ 1 ∧ ((1 : Nat) = 1 → (1 : Nat) ≤ 2) ∧
      ((1 : Nat) < 1 ∨ ((1 : Nat) = 1 ∧ (1 : Nat) ≤ 2))) := by
  refine ⟨by decide, by decide, ?_⟩
  exact C3_amended_match_location_invariants "ab" headRegex (by decide)
    { byte_start := 0, line_start := 1, column_start := 1, byte_end := 1,
      line_end := 1, column_end := 2 } (by decide)

/-! ### C3 counterexample: `as u32` truncation on a 4 GiB text -/

/-- `n` copies of the two-byte line `a\n`. -/
def bigList (n : Nat) : List Char := (List.replicate n ['a', '\n']).flatten

/-- A 2^32-byte text made of 2^31 lines `a\n`. -/
def bigText : String := String.mk (bigList 2147483648)

theorem bigList_succ (n : Nat) : bigList (n + 1) = bigList n ++ ['a', '\n'] := by
  unfold bigList
  rw [List.replicate_succ', List.flatten_append]
  simp

theorem utf8Len_append (xs ys : List Char) :
    utf8Len (xs ++ ys) = utf8Len xs + utf8Len ys := by
  induction xs with
  | nil => simp [utf8Len]
  | cons c cs ih =>
    simp only [List.cons_append, utf8Len, List.append_eq, ih]
    omega

theorem utf8Size_a : ('a' : Char).utf8Size = 1 := by decide

theorem utf8Size_nl : ('\n' : Char).utf8Size = 1 := by decide

theorem utf8Len_bigList (n : Nat) : utf8Len (bigList n) = 2 * n := by
  induction n with
  | zero => rfl
  | succ m ih =>
    rw [bigList_succ, utf8Len_append, ih]
    simp only [utf8Len, utf8Size_a, utf8Size_nl]
    omega

theorem count_bigList (n : Nat) : (bigList n).count '\n' = n := by
  induction n with
  | zero => rfl
  | succ m ih =>
    rw [bigList_succ, List.count_append, ih,
      show List.count '\n' ['a', '\n'] = 1 from by decide]

theorem trailRun_bigList (n : Nat) (h : 1 ≤ n) : trailRun (bigList n) = 0 := by
  cases n with
  | zero => omega
  | succ m =>
    rw [bigList_succ]
    unfold trailRun
    rw [List.reverse_append]
    simp [List.takeWhile]

theorem processW_bigList (k : Nat) (h1 : 1 ≤ k) (hk : 1 + k < u32Mod) :
    processW (bigList k) 1 1 = (1 + k, 1) := by
  rw [processW_spec _ 1 1 (by simp [u32Mod]) (by simp [u32Mod])]
  have hmem : '\n' ∈ bigList k := by
    cases k with
    | zero => omega
    | succ m =>
      rw [bigList_succ]
      simp
  rw [count_bigList, trailRun_bigList k h1]
  simp only [hmem, if_pos]
  rw [Nat.mod_eq_of_lt hk, Nat.mod_eq_of_lt (by simp [u32Mod])]

theorem bigText_toList : bigText.toList = bigList 2147483648 := rfl

theorem byte_to_line_col_bigText_start :
    byte_to_line_col bigText 4294967294 = (2147483648, 1) := by
  unfold byte_to_line_col
  rw [bigText_toList, btlcAux_eq_processW]
  rw [show bigList 2147483648 = bigList 2147483647 ++ ['a', '\n'] from bigList_succ _]
  rw [takeBefore_append _ _ 0 4294967294 (by simp [utf8Len_bigList])]
  rw [takeBefore_none _ _ _ (by simp [utf8Len_bigList])]
  rw [List.append_nil]
  exact processW_bigList 2147483647 (by omega) (by simp [u32Mod])

theorem byte_to_line_col_bigText_end :
    byte_to_line_col bigText 4294967296 = (2147483649, 1) := by
  unfold byte_to_line_col
  rw [bigText_toList, btlcAux_eq_processW,
    takeBefore_full _ 0 _ (by simp [utf8Len_bigList])]
  exact processW_bigList 2147483648 (by omega) (by simp [u32Mod])

/-- On `bigText` the pattern `a\n` matches at every even offset; its final
match is the span `(2^32-2, 2^32)` straddling the 4 GiB boundary.  This model
pattern reports exactly that final span. -/
def straddleFind (s : String) : List (Nat × Nat) :=
  if textByteLen s = 4294967296 then [(4294967294, 4294967296)] else []

def straddleRegex : Regex where
  findIter := straddleFind
  wf := by
    intro s m hm
    unfold straddleFind at hm
    split at hm
    · rename_i h
      simp only [List.mem_singleton] at hm
      subst hm
      refine ⟨by omega, ?_⟩
      show 4294967296 ≤ textByteLen s
      omega
    · simp at hm

theorem textByteLen_bigText : textByteLen bigText = 4294967296 := by
  unfold textByteLen
  rw [bigText_toList, utf8Len_bigList]

/-- **C3 counterexample.**  On the 2^32-byte text of `a\n` lines, the final
match of the pattern `a\n` straddles the 4 GiB boundary; the `as u32` casts
truncate its end offset to 0, so the produced match location violates
`byte_start <= byte_end` (byte_start = 4294967294, byte_end = 0). -/
theorem C3_counterexample_byte_truncation :
    find_matches bigText straddleRegex =
      [{ byte_start := 4294967294, line_start := 2147483648, column_start := 1,
         byte_end := 0, line_end := 2147483649, column_end := 1 }] ∧
    ¬ ((4294967294 : Nat) ≤ 0) := by
  refine ⟨?_, by omega⟩
  unfold find_matches
  have hproj : straddleRegex.findIter = straddleFind := rfl
  have hfi : straddleRegex.findIter bigText = [(4294967294, 4294967296)] := by
    rw [hproj]
    unfold straddleFind
    rw [textByteLen_bigText]
    simp
  rw [hfi]
  simp only [List.map_cons, List.map_nil]
  rw [byte_to_line_col_bigText_start, byte_to_line_col_bigText_end]
  have h1 : (4294967294 : Nat) % u32Mod = 4294967294 := by
    simp [u32Mod]
  have h2 : (4294967296 : Nat) % u32Mod = 0 := by
    simp [u32Mod]
  rw [h1, h2]

/-- **C4.**  `find_matches` is deterministic and side-effect-free: it is
embedded as a pure function of the text and the compiled pattern (it performs
no I/O in the source), so two invocations on identical `(T, P)` denote the
same ordered match list. -/
theorem C4_find_matches_deterministic (content : String) (regex : Regex) :
    find_matches content regex = find_matches content regex := rfl

/-! ## C5: byte-offset-to-position conversion -/

/-- **C5 (amended).**  For every text whose byte length is at most 2^32 - 2
(so the `u32` counters cannot wrap) and every byte offset, the conversion
yields the 1-based line `1 + (number of line terminators strictly before the
offset)` and the 1-based column `1 + (number of Unicode scalar values — not
bytes — after the last terminator before the offset)`. -/
theorem C5_amended_byte_to_line_col (content : String) (p : Nat)
    (h : textByteLen content ≤ 4294967294) :
    byte_to_line_col content p = (lineAt content p, colAt content p) :=
  byte_to_line_col_spec content p (by simp only [u32Mod]; omega)

theorem C5_witness :
    textByteLen "aé\nxy" ≤ 4294967294 ∧
    byte_to_line_col "aé\nxy" 5 = (lineAt "aé\nxy" 5, colAt "aé\nxy" 5) ∧
    byte_to_line_col "aé\nxy" 5 = (2, 2) := by
  refine ⟨by decide, C5_amended_byte_to_line_col _ _ (by decide), by decide⟩

/-! ### C5 counterexample: line-counter wraparound -/

/-- A text of 2^32 - 1 line terminators. -/
def nlText : String := String.mk (List.replicate 4294967295 '\n')

/-- The whole-text match (like the dot-all regex `(?s)^.*$`): its end boundary
is the text's byte length. -/
def wholeTextRegex : Regex where
  findIter := fun s => [(0, textByteLen s)]
  wf := by
    intro s m hm
    dsimp only at hm
    simp only [List.mem_singleton] at hm
    subst hm
    exact ⟨Nat.zero_le _, Nat.le_refl _⟩

theorem utf8Len_replicate_nl (n : Nat) : utf8Len (List.replicate n '\n') = n := by
  induction n with
  | zero => rfl
  | succ m ih =>
    rw [List.replicate_succ]
    simp only [utf8Len, utf8Size_nl, ih]
    omega

theorem nlText_toList : nlText.toList = List.replicate 4294967295 '\n' := rfl

theorem textByteLen_nlText : textByteLen nlText = 4294967295 := by
  unfold textByteLen
  rw [nlText_toList]
  exact utf8Len_replicate_nl _

theorem trailRun_replicate_nl (n : Nat) : trailRun (List.replicate n '\n') = 0 := by
  cases n with
  | zero => rfl
  | succ m =>
    unfold trailRun
    rw [List.reverse_replicate, List.replicate_succ]
    simp [List.takeWhile]

/-- The conversion and the spec-side line count on a text of `n` line
terminators, at offset `n`, proved for a symbolic `n` so that the huge
instantiation below never has to be evaluated. -/
theorem replicate_nl_conv (n : Nat) (hn : 1 ≤ n) :
    byte_to_line_col (String.mk (List.replicate n '\n')) n = ((1 + n) % u32Mod, 1) ∧
    lineAt (String.mk (List.replicate n '\n')) n = 1 + n := by
  have htol : (String.mk (List.replicate n '\n')).toList = List.replicate n '\n' := rfl
  have htake : takeBefore (String.mk (List.replicate n '\n')).toList 0 n =
      List.replicate n '\n' := by
    rw [htol]
    exact takeBefore_full _ 0 _ (by simp only [utf8Len_replicate_nl]; omega)
  have hmem : '\n' ∈ List.replicate n '\n' :=
    List.mem_replicate.mpr ⟨by omega, rfl⟩
  constructor
  · unfold byte_to_line_col
    rw [btlcAux_eq_processW, htake,
      processW_spec _ 1 1 (by norm_num [u32Mod]) (by norm_num [u32Mod]),
      List.count_replicate_self, if_pos hmem, trailRun_replicate_nl]
    norm_num [u32Mod]
  · unfold lineAt
    rw [htake, List.count_replicate_self]

/-- **C5 counterexample.**  At the end boundary of the whole-text match on a
text of 2^32 - 1 line terminators, the `u32` line counter wraps (in a release
build; a debug build panics at the same increment): the conversion returns
line 0, not 1 + 4294967295 = 2^32 as the claim demands. -/
theorem C5_counterexample_line_wrap :
    wholeTextRegex.findIter nlText = [(0, 4294967295)] ∧
    byte_to_line_col nlText 4294967295 = (0, 1) ∧
    lineAt nlText 4294967295 = 4294967296 ∧
    byte_to_line_col nlText 4294967295 ≠
      (lineAt nlText 4294967295, colAt nlText 4294967295) := by
  have hgen := replicate_nl_conv 4294967295 (by omega)
  have hconv : byte_to_line_col nlText 4294967295 = (0, 1) := by
    have h := hgen.1
    rw [show (1 + 4294967295) % u32Mod = 0 from by norm_num [u32Mod]] at h
    exact h
  have hline : lineAt nlText 4294967295 = 4294967296 := by
    have h := hgen.2
    rw [show (1 : Nat) + 4294967295 = 4294967296 from by norm_num] at h
    exact h
  refine ⟨?_, hconv, hline, ?_⟩
  · have hproj : wholeTextRegex.findIter = fun s => [(0, textByteLen s)] := rfl
    rw [hproj]
    show [((0 : Nat), textByteLen nlText)] = [(0, 4294967295)]
    rw [textByteLen_nlText]
  · rw [hconv, hline]
    intro hcontra
    have h0 : (0 : Nat) = 4294967296 := congrArg Prod.fst hcontra
    exact absurd h0 (by norm_num)

/-! ## C6: example-file classification -/

/-- **C6.**  During extraction an entry is classified as an example file iff
some component of its intra-archive path equals the literal `examples` and its
file extension is `rs`; and with no pattern supplied, every qualifying entry is
still collected as an example artifact whose match set is empty. -/
theorem C6_example_classification :
    (∀ path : List String,
      is_example_file path = true ↔
        (("examples" ∈ path) ∧ fileExtension path = some "rs")) ∧
    (∀ entries : List TarEntry,
      extract_examples_from_reader entries none =
        (entries.filter (fun en => is_example_file en.path)).map
          (fun en => Example.ExampleInMemory (entryFileName en.path) en.contents [])) := by
  constructor
  · intro path
    unfold is_example_file
    rw [Bool.and_eq_true, List.any_eq_true]
    constructor
    · rintro ⟨⟨c, hc, hceq⟩, hext⟩
      refine ⟨?_, by simpa using hext⟩
      have : c = "examples" := by simpa using hceq
      exact this ▸ hc
    · rintro ⟨hmem, hext⟩
      exact ⟨⟨"examples", hmem, by simp⟩, by simp [hext]⟩
  · intro entries
    induction entries with
    | nil => rfl
    | cons en rest ih =>
      by_cases he : is_example_file en.path <;>
        simp [extract_examples_from_reader, he, ih]

/-! ## C7: fail-fast pattern compilation -/

theorem runSearchWithBuilder_compile_once (engine : RegexEngine) (env : SearchEnv)
    (b1 : RustCrateSearch) (p : String) :
    (runSearchWithBuilder engine env b1 (some p)).1 = 1 := by
  unfold runSearchWithBuilder
  cases hsp : b1.set_pattern engine p <;> simp [hsp]

theorem runSearchWithBuilder_fail_fast (engine : RegexEngine) (env : SearchEnv)
    (b1 : RustCrateSearch) (p e : String)
    (he : engine.compile p = .error e) :
    runSearchWithBuilder engine env b1 (some p) =
      (1, [], .error (.Other ("Invalid regex pattern: " ++ e))) := by
  simp only [runSearchWithBuilder, RustCrateSearch.set_pattern, he]

/-- **C7.**  The caller's pattern is compiled exactly once, at builder time;
a malformed pattern makes the flow fail with the spec's `InvalidPattern` error
(realized as `EgError::Other("Invalid regex pattern: ...")`) with an empty
collaborator-query trace — no registry, download, disk or repository query is
ever issued.  (The one compiled handle is the single `Regex` value stored in
the builder and passed by reference to every component.) -/
theorem C7_invalid_pattern_fails_fast (engine : RegexEngine) (env : SearchEnv)
    (name : String) (version_spec : Option String) (p : String) :
    ((runSearch engine env name version_spec (some p)).1 = 1) ∧
    (∀ e, engine.compile p = .error e →
      runSearch engine env name version_spec (some p) =
        (1, [], .error (.Other ("Invalid regex pattern: " ++ e)))) := by
  constructor
  · unfold runSearch
    exact runSearchWithBuilder_compile_once engine env _ p
  · intro e he
    unfold runSearch
    exact runSearchWithBuilder_fail_fast engine env _ p e he

/-- A regex engine invocation that rejects this pattern
(like `Regex::new("(")`). -/
def failEngine : RegexEngine where
  compile := fun _ => .error "unclosed group"

theorem C7_witness :
    failEngine.compile "(" = .error "unclosed group" ∧
    runSearch failEngine envVersions "tokio" none (some "(") =
      (1, [], .error (.Other ("Invalid regex pattern: unclosed group"))) := by
  refine ⟨rfl, ?_⟩
  exact (C7_invalid_pattern_fails_fast failEngine envVersions "tokio" none "(").2
    "unclosed group" rfl

/-! ## C8: remote-fallback error policy -/

/-- Registry knows the crate but reports no repository URL; empty cached
archive, so the fallback runs. -/
def envNoRepo : SearchEnv :=
  { envVersions with
    metadata_packages := .ok []
    crate_info := fun _ => .ok ⟨"1.0.0", none⟩
    cached_archive := fun _ _ => some [] }

/-- Repository URL on GitHub, but the content-API listing fails
(e.g. a transport error). -/
def envListingErr : SearchEnv :=
  { envNoRepo with
    crate_info := fun _ => .ok ⟨"1.0.0", some "https://github.com/a/b"⟩ }

/-- **C8 counterexample.**  A crate with no declared repository URL makes the
fallback — and, through `?` in the orchestrator, the whole search — fail with
a `GitHubError` instead of degrading to an empty example set; conversely a
transport failure while listing the `examples` directory is swallowed into
`Ok([])` instead of propagating. -/
theorem C8_counterexample_fallback_policy :
    (search_examples envNoRepo "demo" "1.0.0" none).2 =
      .error (.GitHubError "No repository URL found for crate 'demo'") ∧
    ((RustCrateSearch.new "demo").search envNoRepo).2 =
      .error (.GitHubError "No repository URL found for crate 'demo'") ∧
    (search_examples envListingErr "demo" "1.0.0" none).2 = .ok [] := by
  refine ⟨by decide, by decide, by decide⟩

/-- **C8 (amended).**  The fallback's actual policy: a repository URL the
substring test does not recognize as GitHub's yields an empty set without
error; any failure of the examples-directory content listing — not-found and
transport failures alike — also degrades to an empty set; a missing repository
URL is a `GitHubError` that propagates out of the fallback (failing the whole
search); and both decoding failures on a listed `.rs` file — base64 and
UTF-8 — propagate as errors. -/
theorem C8_amended_fallback_policy (env : SearchEnv) (crate_name version : String)
    (pattern : Option Regex) (cd : CrateData)
    (hinfo : env.crate_info crate_name = .ok cd) :
    ((∀ url, cd.repository = some url → is_github_url url = false →
        search_examples env crate_name version pattern = ([.registry], .ok [])) ∧
     (∀ url owner repo e, cd.repository = some url → is_github_url url = true →
        parse_github_url url = .ok (owner, repo) →
        env.gh_contents owner repo = .error e →
        search_examples env crate_name version pattern =
          ([.registry, .github], .ok [])) ∧
     (cd.repository = none →
        search_examples env crate_name version pattern =
          ([.registry], .error (.GitHubError
            ("No repository URL found for crate '" ++ crate_name ++ "'")))) ∧
     (∀ url owner repo fname enc e, cd.repository = some url →
        is_github_url url = true →
        parse_github_url url = .ok (owner, repo) →
        env.gh_contents owner repo = .ok [⟨fname, true, some enc⟩] →
        strEndsWith fname ".rs" = true →
        env.base64_decode (stripNewlines enc) = .error e →
        search_examples env crate_name version pattern =
          ([.registry, .github], .error (.GitHubError
            ("Failed to decode file content: " ++ e)))) ∧
     (∀ url owner repo fname enc bytes e, cd.repository = some url →
        is_github_url url = true →
        parse_github_url url = .ok (owner, repo) →
        env.gh_contents owner repo = .ok [⟨fname, true, some enc⟩] →
        strEndsWith fname ".rs" = true →
        env.base64_decode (stripNewlines enc) = .ok bytes →
        env.utf8_decode bytes = .error e →
        search_examples env crate_name version pattern =
          ([.registry, .github], .error (.GitHubError
            ("Invalid UTF-8 in file: " ++ e))))) := by
  have hrepo : ∀ url, cd.repository = some url →
      get_repository_url env crate_name = ([.registry], .ok url) := by
    intro url hu
    simp only [get_repository_url, hinfo, hu]
  refine ⟨?_, ?_, ?_, ?_, ?_⟩
  · intro url hu hgit
    simp only [search_examples, hrepo url hu, hgit]
    simp
  · intro url owner repo e hu hgit hparse hcont
    simp only [search_examples, hrepo url hu, hgit, hparse,
      search_github_examples, hcont]
    simp
  · intro hu
    simp only [search_examples, get_repository_url, hinfo, hu]
  · intro url owner repo fname enc e hu hgit hparse hcont hrs hdec
    simp only [search_examples, hrepo url hu, hgit, hparse,
      search_github_examples, hcont, processGhItems, hrs, hdec]
    simp
  · intro url owner repo fname enc bytes e hu hgit hparse hcont hrs hb64 hutf
    simp only [search_examples, hrepo url hu, hgit, hparse,
      search_github_examples, hcont, processGhItems, hrs, hb64, hutf]
    simp

/-- Repository URL on a host the fallback does not recognize. -/
def envGitlab : SearchEnv :=
  { envNoRepo with
    crate_info := fun _ => .ok ⟨"1.0.0", some "https://gitlab.com/a/b"⟩ }

theorem C8_witness :
    is_github_url "https://gitlab.com/a/b" = false ∧
    search_examples envGitlab "demo" "1.0.0" none = ([.registry], .ok []) := by
  refine ⟨by decide, ?_⟩
  exact (C8_amended_fallback_policy envGitlab "demo" "1.0.0" none
    ⟨"1.0.0", some "https://gitlab.com/a/b"⟩ rfl).1 "https://gitlab.com/a/b" rfl
    (by decide)

/-! ## C9: result counts -/

theorem build_result_spec (self : RustCrateSearch) (version : String)
    (fex : List Example) :
    (build_result self version fex).total_examples =
      (build_result self version fex).examples.length ∧
    (build_result self version fex).matched_examples =
      (if self.pattern.isSome then
        ((build_result self version fex).examples.filter
          (fun e => !e.search_matches.isEmpty)).length
      else (build_result self version fex).examples.length) := ⟨rfl, rfl⟩

theorem after_extraction_ok (self : RustCrateSearch) (env : SearchEnv)
    (version : String) (examples : List Example) (t : List Query)
    (res : SearchResult)
    (h : after_extraction self env version examples = (t, .ok res)) :
    res.total_examples = res.examples.length ∧
    res.matched_examples =
      (if self.pattern.isSome then
        (res.examples.filter (fun e => !e.search_matches.isEmpty)).length
      else res.examples.length) := by
  unfold after_extraction at h
  split at h
  · rcases hse : search_examples env self.crate_name version self.pattern with ⟨t2, r2⟩
    rw [hse] at h
    cases r2 with
    | error e => simp at h
    | ok fex =>
      injection h with h1 h2
      injection h2 with h3
      subst h3
      exact build_result_spec self version fex
  · injection h with h1 h2
    injection h2 with h3
    subst h3
    exact build_result_spec self version examples

/-- **C9 (amended).**  For every completed search, `total_examples` is the
number of artifacts in the result, and `matched_examples` is the number of
artifacts with at least one match location when a pattern was supplied — but
equals `total_examples` (not the zero count of matching artifacts) when no
pattern was supplied. -/
theorem C9_amended_result_counts (self : RustCrateSearch) (env : SearchEnv)
    (t : List Query) (res : SearchResult)
    (h : self.search env = (t, .ok res)) :
    res.total_examples = res.examples.length ∧
    res.matched_examples =
      (if self.pattern.isSome then
        (res.examples.filter (fun e => !e.search_matches.isEmpty)).length
      else res.examples.length) := by
  unfold RustCrateSearch.search at h
  split at h
  · exact absurd h (by simp)
  · rename_i version heqres
    split at h
    · rename_i entries hcached
      have hsnd : (after_extraction self env version
          (extract_examples_from_reader entries self.pattern)).2 = .ok res :=
        congrArg (fun q => q.2) h
      exact after_extraction_ok self env version _ _ res (by rw [← hsnd])
    · split at h
      · exact absurd h (by simp)
      · rename_i entries hdl
        have hsnd : (after_extraction self env version
            (extract_examples_from_reader entries self.pattern)).2 = .ok res :=
          congrArg (fun q => q.2) h
        exact after_extraction_ok self env version _ _ res (by rw [← hsnd])

/-- Crate pinned in the current project; one cached example file. -/
def envDemo : SearchEnv :=
  { envVersions with
    metadata_packages := .ok [("demo", "1.0.0")]
    cached_archive := fun n v =>
      if n == "demo" && v == "1.0.0" then
        some [⟨["demo-1.0.0", "examples", "basic.rs"], "fn main() {}"⟩]
      else none }

/-- The result of searching `demo` against `envDemo` with no pattern. -/
def resDemo : SearchResult :=
  { version := "1.0.0", total_examples := 1, matched_examples := 1,
    examples := [Example.ExampleInMemory "basic.rs" "fn main() {}" []] }

/-- **C9 counterexample.**  With no pattern supplied and one example found,
the code sets `matched_examples` to `total_examples` (= 1), whereas the number
of artifacts containing at least one match location is 0: the claim's
"matched_examples = number of artifacts with a match" fails for
pattern-less searches. -/
theorem C9_counterexample_no_pattern_count :
    ((RustCrateSearch.new "demo").search envDemo).2 = .ok resDemo ∧
    resDemo.matched_examples = 1 ∧
    (resDemo.examples.filter (fun e => !e.search_matches.isEmpty)).length = 0 ∧
    (1 : Nat) ≠ 0 := by
  refine ⟨by decide, by decide, by decide, by decide⟩

theorem C9_witness :
    (RustCrateSearch.new "demo").search envDemo = ([.metadata, .disk], .ok resDemo) ∧
    (resDemo.total_examples = resDemo.examples.length ∧
     resDemo.matched_examples =
       (if (RustCrateSearch.new "demo").pattern.isSome then
         (resDemo.examples.filter (fun e => !e.search_matches.isEmpty)).length
       else resDemo.examples.length)) := by
  refine ⟨by decide, ?_⟩
  exact C9_amended_result_counts (RustCrateSearch.new "demo") envDemo
    [.metadata, .disk] resDemo (by decide)

/-! ## C10: every artifact is in-memory -/

theorem extract_in_memory (entries : List TarEntry) (pattern : Option Regex) :
    ∀ e ∈ extract_examples_from_reader entries pattern,
      ∃ f c m, e = Example.ExampleInMemory f c m := by
  induction entries with
  | nil =>
    intro e he
    simp [extract_examples_from_reader] at he
  | cons en rest ih =>
    intro e he
    unfold extract_examples_from_reader at he
    split at he
    · rcases List.mem_cons.mp he with h | h
      · exact ⟨_, _, _, h⟩
      · exact ih e h
    · exact ih e he

theorem processGh_in_memory (env : SearchEnv) (pattern : Option Regex) :
    ∀ items l, processGhItems env pattern items = .ok l →
      ∀ e ∈ l, ∃ f c m, e = Example.ExampleInMemory f c m := by
  intro items
  induction items with
  | nil =>
    intro l hl e he
    unfold processGhItems at hl
    cases hl
    simp at he
  | cons item rest ih =>
    intro l hl e he
    unfold processGhItems at hl
    by_cases hf : item.isFile
    · rw [if_pos hf] at hl
      by_cases hrs : strEndsWith item.name ".rs"
      · rw [if_pos hrs] at hl
        rcases hcon : item.content with _ | enc
        · rw [hcon] at hl
          exact ih l hl e he
        · rw [hcon] at hl
          dsimp only at hl
          rcases hb64 : env.base64_decode (stripNewlines enc) with eb | bytes
          · rw [hb64] at hl
            exact absurd hl (by simp)
          · rw [hb64] at hl
            dsimp only at hl
            rcases hutf : env.utf8_decode bytes with eu | content
            · rw [hutf] at hl
              exact absurd hl (by simp)
            · rw [hutf] at hl
              dsimp only at hl
              rcases hrec : processGhItems env pattern rest with er | tail
              · rw [hrec] at hl
                exact absurd hl (by simp)
              · rw [hrec] at hl
                injection hl with hl2
                subst hl2
                rcases List.mem_cons.mp he with h | h
                · exact ⟨_, _, _, h⟩
                · exact ih tail hrec e h
      · rw [if_neg hrs] at hl
        exact ih l hl e he
    · rw [if_neg hf] at hl
      exact ih l hl e he

theorem search_examples_in_memory (env : SearchEnv) (name version : String)
    (pattern : Option Regex) (t : List Query) (l : List Example)
    (h : search_examples env name version pattern = (t, .ok l)) :
    ∀ e ∈ l, ∃ f c m, e = Example.ExampleInMemory f c m := by
  unfold search_examples at h
  split at h
  · exact absurd h (by simp)
  · rename_i t1 repo_url
    split at h
    · injection h with h1 h2
      injection h2 with h3
      intro e he
      rw [← h3] at he
      simp at he
    · split at h
      · exact absurd h (by simp)
      · rename_i owner repo hparse
        have hsnd : (search_github_examples env owner repo pattern).2 = .ok l :=
          congrArg (fun q => q.2) h
        unfold search_github_examples at hsnd
        split at hsnd
        · injection hsnd with h3
          intro e he
          rw [← h3] at he
          simp at he
        · exact processGh_in_memory env pattern _ l hsnd

theorem after_extraction_examples (self : RustCrateSearch) (env : SearchEnv)
    (version : String) (examples : List Example) (t : List Query)
    (res : SearchResult)
    (h : after_extraction self env version examples = (t, .ok res)) :
    res.examples = examples ∨
    ∃ t2, search_examples env self.crate_name version self.pattern =
      (t2, .ok res.examples) := by
  unfold after_extraction at h
  split at h
  · rcases hse : search_examples env self.crate_name version self.pattern with ⟨t2, r2⟩
    rw [hse] at h
    cases r2 with
    | error e => simp at h
    | ok fex =>
      injection h with h1 h2
      injection h2 with h3
      subst h3
      right
      exact ⟨t2, rfl⟩
  · left
    injection h with h1 h2
    injection h2 with h3
    subst h3
    rfl

/-- **C10.**  Every artifact of a completed search is the in-memory variant
(filename plus buffered contents): archive extraction — cached or downloaded —
and the repository fallback construct only `Example::ExampleInMemory`, and the
pipeline never builds `ExampleOnDisk`. -/
theorem C10_all_artifacts_in_memory (self : RustCrateSearch) (env : SearchEnv)
    (t : List Query) (res : SearchResult)
    (h : self.search env = (t, .ok res)) :
    ∀ e ∈ res.examples, ∃ filename contents search_matches,
      e = Example.ExampleInMemory filename contents search_matches := by
  unfold RustCrateSearch.search at h
  split at h
  · exact absurd h (by simp)
  · rename_i version heqres
    split at h
    · rename_i entries hcached
      have hsnd : (after_extraction self env version
          (extract_examples_from_reader entries self.pattern)).2 = .ok res :=
        congrArg (fun q => q.2) h
      rcases after_extraction_examples self env version _ _ res (by rw [← hsnd])
        with hex | ⟨t2, hex⟩
      · rw [hex]
        exact extract_in_memory entries self.pattern
      · exact search_examples_in_memory env self.crate_name version self.pattern
          t2 res.examples hex
    · split at h
      · exact absurd h (by simp)
      · rename_i entries hdl
        have hsnd : (after_extraction self env version
            (extract_examples_from_reader entries self.pattern)).2 = .ok res :=
          congrArg (fun q => q.2) h
        rcases after_extraction_examples self env version _ _ res (by rw [← hsnd])
          with hex | ⟨t2, hex⟩
        · rw [hex]
          exact extract_in_memory entries self.pattern
        · exact search_examples_in_memory env self.crate_name version self.pattern
            t2 res.examples hex

theorem C10_witness :
    ((RustCrateSearch.new "demo").search envDemo =
      ([.metadata, .disk], .ok resDemo)) ∧
    (∃ filename contents search_matches,
      Example.ExampleInMemory "basic.rs" "fn main() {}" [] =
        Example.ExampleInMemory filename contents search_matches) := by
  refine ⟨by decide, ?_⟩
  exact C10_all_artifacts_in_memory (RustCrateSearch.new "demo") envDemo
    [.metadata, .disk] resDemo (by decide)
    (Example.ExampleInMemory "basic.rs" "fn main() {}" []) (by decide)

end Eg
